import Mathlib

/-!
# Interrupt driven serial 0 functions with RTS/CTS handshaking (`uart12.c`)

A shallow embedding of `src/C51/uart12.c` (namespace `C51`) and of its SDCC
twin `src/SDCC/uart12.c` (namespace `SDCC`): the module variables and the special
function registers the file touches form one `State`; every C function becomes a
function on `State`.  Unsigned 8-bit variables are natural numbers, each update
reduced modulo 256 exactly where the C code stores into an `unsigned char`.
-/

namespace Uart12

/-- Module variables of `uart12.c` together with the special function registers
and port pins it reads or writes.  `rx_buf` maps an index to the byte stored
there; the C array has `BUFFERSIZE` cells, indices `0 .. BUFFERSIZE-1`.
`SBUF0` is two hardware registers behind one address: `SBUF0_rx` is what a read
of `SBUF0` yields, `SBUF0_tx` is what a write to `SBUF0` loads. -/
structure State where
  rx_head : Nat
  rx_tail : Nat
  rx_remaining : Nat
  rx_buf : Nat → Nat
  tx_ready : Bool
  RTS : Bool
  CTS : Bool
  SCON0 : Nat
  SBUF0_rx : Nat
  SBUF0_tx : Nat
  TMOD : Nat
  CKMOD : Nat
  TH1 : Nat
  TR1 : Bool
  ES0 : Bool

/-- The three preprocessor checks on `BUFFERSIZE` (lines 19-25): not less than 4,
not greater than 256, a power of two. -/
def validBufferSize (BUFFERSIZE : Nat) : Prop :=
  ¬ BUFFERSIZE < 4 ∧ ¬ BUFFERSIZE > 256 ∧ ¬ (BUFFERSIZE &&& (BUFFERSIZE - 1)) ≠ 0

instance (n : Nat) : Decidable (validBufferSize n) := by
  unfold validBufferSize; infer_instance

/-- Value of `BUFFERSIZE` in the source (line 18). -/
def BUFFERSIZE : Nat := 128

/-- Macro `PAUSELEVEL`, `BUFFERSIZE/4` (line 27). -/
def PAUSELEVEL (BUFFERSIZE : Nat) : Nat := BUFFERSIZE / 4

/-- Macro `RESUMELEVEL`, `BUFFERSIZE/2` (line 28). -/
def RESUMELEVEL (BUFFERSIZE : Nat) : Nat := BUFFERSIZE / 2

/-- Bit `i` of an 8-bit register written with a bit assignment. -/
def writeBit (reg i : Nat) (b : Bool) : Nat :=
  if b then reg ||| 2 ^ i else reg &&& (255 - 2 ^ i)

/-- Receive interrupt flag, bit 0 of `SCON0` (8051 register layout; the header
`reg420.h` that declares it is not part of the sources). -/
def RI (s : State) : Bool := s.SCON0.testBit 0

/-- Transmit interrupt flag, bit 1 of `SCON0`. -/
def TI (s : State) : Bool := s.SCON0.testBit 1

/-- Receive enable, bit 4 of `SCON0`. -/
def REN (s : State) : Bool := s.SCON0.testBit 4

/-- Assignment `RI = b`. -/
def set_RI (s : State) (b : Bool) : State := { s with SCON0 := writeBit s.SCON0 0 b }

/-- Assignment `TI = b`. -/
def set_TI (s : State) (b : Bool) : State := { s with SCON0 := writeBit s.SCON0 1 b }

/-- Assignment `REN = b`. -/
def set_REN (s : State) (b : Bool) : State := { s with SCON0 := writeBit s.SCON0 4 b }

/-- The serial port completes the reception of byte `b`: the byte is readable in
`SBUF0` and the receive interrupt flag is raised. -/
def hw_receive (b : Nat) (s : State) : State :=
  set_RI { s with SBUF0_rx := b } true

/-- The serial port completes a transmission: the transmit interrupt flag is raised. -/
def hw_transmitted (s : State) : State := set_TI s true

namespace C51

/-- Serial 0 interrupt service routine (`uart0_isr`, lines 41-61). -/
def uart0_isr (BUFFERSIZE : Nat) (s : State) : State :=
  let s := if TI s then { set_TI s false with tx_ready := true } else s
  if RI s then
    let s := set_RI s false
    let s := { s with rx_buf := Function.update s.rx_buf s.rx_head s.SBUF0_rx }
    let s := { s with rx_head := ((s.rx_head + 1) % 256) &&& (BUFFERSIZE - 1) }
    let s := { s with rx_remaining := (s.rx_remaining + 255) % 256 }
    if !s.RTS then
      if s.rx_remaining < PAUSELEVEL BUFFERSIZE then { s with RTS := true } else s
    else s
  else s

/-- Initialisation (`uart_init`, lines 68-84).  `rx_remaining` is an
`unsigned char`, so the stored value is `BUFFERSIZE` modulo 256. -/
def uart_init (BUFFERSIZE : Nat) (s : State) : State :=
  let s := { s with rx_head := 0 }
  let s := { s with rx_tail := 0 }
  let s := { s with rx_remaining := BUFFERSIZE % 256 }
  let s := { s with TMOD := (s.TMOD &&& 0x0F) ||| 0x20 }
  let s := { s with CKMOD := s.CKMOD ||| 0x10 }
  let s := { s with TH1 := 0xD9 }
  let s := { s with TR1 := true }
  let s := { s with SCON0 := 0x50 }
  let s := set_REN s true
  let s := set_TI s true
  let s := set_RI s false
  let s := { s with ES0 := true }
  { s with RTS := false }

/-- Function `uart_char_avail` (lines 89-91): the returned bit and the state after
the call. -/
def uart_char_avail (s : State) : Bool × State :=
  (s.rx_head != s.rx_tail, s)

/-- Function `uart_getchar` (lines 97-111).  The wait loop
`while (rx_head == rx_tail);` changes nothing, so within one call it either
falls through at once or never exits; `none` is the call that never returns.
The result is the state after the call and the byte returned, taken as the
unsigned 8-bit value read from the buffer. -/
def uart_getchar (BUFFERSIZE : Nat) (s : State) : Option (State × Nat) :=
  if s.rx_head == s.rx_tail then none
  else
    let buf := s.rx_buf s.rx_tail
    let s := { s with rx_tail := ((s.rx_tail + 1) % 256) &&& (BUFFERSIZE - 1) }
    let s := { s with rx_remaining := (s.rx_remaining + 1) % 256 }
    let s :=
      if s.RTS then
        if s.rx_remaining > RESUMELEVEL BUFFERSIZE then { s with RTS := false } else s
      else s
    some (s, buf)

/-- Function `uart_putchar` (lines 116-122).  The wait loop `while (!tx_ready);`
changes nothing, so `none` is the call that never returns. -/
def uart_putchar (c : Nat) (s : State) : Option (State × Nat) :=
  if !s.tx_ready then none
  else
    let s := { s with SBUF0_tx := c }
    let s := { s with tx_ready := false }
    some (s, c)

/-- A receive event: the hardware delivers byte `b`, then the interrupt service
routine runs. -/
def rx_event (BUFFERSIZE : Nat) (b : Nat) (s : State) : State :=
  uart0_isr BUFFERSIZE (hw_receive b s)

/-- The operations of an interleaving: a receive event delivering a byte, or a
call of `uart_getchar`. -/
inductive Event where
  | recv (b : Nat)
  | getc
deriving DecidableEq, Repr

/-- One operation: the state after it and the bytes it returned (`none` when the
`uart_getchar` call does not return). -/
def step (BUFFERSIZE : Nat) (s : State) : Event → Option (State × List Nat)
  | .recv b => some (rx_event BUFFERSIZE b s, [])
  | .getc =>
    match uart_getchar BUFFERSIZE s with
    | none => none
    | some (s', c) => some (s', [c])

/-- A sequence of operations run in order: the final state and the bytes the
`uart_getchar` calls returned, `none` when one of the calls does not return. -/
def run (BUFFERSIZE : Nat) : State → List Event → Option (State × List Nat)
  | s, [] => some (s, [])
  | s, e :: es =>
    match step BUFFERSIZE s e with
    | none => none
    | some (s', o) =>
      match run BUFFERSIZE s' es with
      | none => none
      | some (s'', os) => some (s'', o ++ os)

/-- Bytes delivered by the receive events of a sequence, in order. -/
def delivered : List Event → List Nat
  | [] => []
  | .recv b :: es => b :: delivered es
  | .getc :: es => delivered es

/-- Number of receive events (`R`). -/
def recvs (es : List Event) : Nat := (delivered es).length

/-- Number of `uart_getchar` calls (`S`). -/
def pops : List Event → Nat
  | [] => 0
  | .recv _ :: es => pops es
  | .getc :: es => pops es + 1

/-- A state with every variable and register zero. -/
def zeroState : State :=
  { rx_head := 0, rx_tail := 0, rx_remaining := 0, rx_buf := fun _ => 0,
    tx_ready := false, RTS := false, CTS := false, SCON0 := 0, SBUF0_rx := 0,
    SBUF0_tx := 0, TMOD := 0, CKMOD := 0, TH1 := 0, TR1 := false, ES0 := false }

/-- Transmit half of `uart0_isr` (lines 43-46). -/
def isr_tx (s : State) : State :=
  if TI s then { set_TI s false with tx_ready := true } else s

/-- Receive half of `uart0_isr` (lines 49-60). -/
def isr_rx (BUFFERSIZE : Nat) (s : State) : State :=
  if RI s then
    let s := set_RI s false
    let s := { s with rx_buf := Function.update s.rx_buf s.rx_head s.SBUF0_rx }
    let s := { s with rx_head := ((s.rx_head + 1) % 256) &&& (BUFFERSIZE - 1) }
    let s := { s with rx_remaining := (s.rx_remaining + 255) % 256 }
    if !s.RTS then
      if s.rx_remaining < PAUSELEVEL BUFFERSIZE then { s with RTS := true } else s
    else s
  else s

/-- Receive events delivering the bytes `bs` one after the other, nothing read
in between. -/
def rx_events (BUFFERSIZE : Nat) (bs : List Nat) (s : State) : State :=
  bs.foldl (fun s b => rx_event BUFFERSIZE b s) s

/-- The ring-buffer invariant against the history of the run: `hist` are the
bytes delivered so far, `S` the number of bytes read so far. -/
structure Inv (C : Nat) (s : State) (hist : List Nat) (S : Nat) : Prop where
  le : S ≤ hist.length
  cap : hist.length - S ≤ C
  head : s.rx_head = hist.length % C
  tail : s.rx_tail = S % C
  rem : s.rx_remaining = (C - (hist.length - S)) % 256
  buf : ∀ i, S ≤ i → i < hist.length → s.rx_buf (i % C) = hist.getD i 0

/-- Index part of the invariant; it holds whether or not the buffer overflowed:
`R` receive events and `S` completed reads so far. -/
structure Idx (C : Nat) (s : State) (R S : Nat) : Prop where
  le : S ≤ R
  head : s.rx_head = R % C
  tail : s.rx_tail = S % C

/-- The byte sequence `0, 1, ..., 127`: as many bytes as the buffer has cells. -/
def fullBurst : List Nat := List.range 128

/-- The wraparound scenario with `C = 4`: three bytes in, two out, two in, one
out, one in, one out. -/
def wrapScenario : List Event :=
  [Event.recv 1, Event.recv 2, Event.recv 3, Event.getc, Event.getc,
   Event.recv 4, Event.recv 5, Event.getc, Event.recv 6, Event.getc]

/-- Everything that can act on the state: the five functions of the module and
the two hardware events that raise an interrupt flag. -/
inductive Op where
  | isr
  | init
  | avail
  | getc
  | putc (c : Nat)
  | hwrx (b : Nat)
  | hwtx
deriving DecidableEq, Repr

/-- State after one operation, `none` when the call does not return. -/
def opStep (BUFFERSIZE : Nat) (s : State) : Op → Option State
  | .isr => some (uart0_isr BUFFERSIZE s)
  | .init => some (uart_init BUFFERSIZE s)
  | .avail => some (uart_char_avail s).2
  | .getc => (uart_getchar BUFFERSIZE s).map Prod.fst
  | .putc c => (uart_putchar c s).map Prod.fst
  | .hwrx b => some (hw_receive b s)
  | .hwtx => some (hw_transmitted s)

/-- State after a sequence of operations, `none` when one of the calls does not
return. -/
def opsRun (BUFFERSIZE : Nat) : State → List Op → Option State
  | s, [] => some s
  | s, op :: ops =>
    match opStep BUFFERSIZE s op with
    | none => none
    | some s' => opsRun BUFFERSIZE s' ops

/-- Whether, while the operations run from `s`, some `uart0_isr` invocation
starts with TI pending. -/
def servedTI (BUFFERSIZE : Nat) : State → List Op → Bool
  | _, [] => false
  | s, op :: ops =>
    (op == Op.isr && TI s) ||
      match opStep BUFFERSIZE s op with
      | none => false
      | some s' => servedTI BUFFERSIZE s' ops

/-- State reached after the first `n` operations of an interleaving. -/
def stateAt (BUFFERSIZE : Nat) (s : State) (evs : List Event) (n : Nat) : Option State :=
  (run BUFFERSIZE s (evs.take n)).map Prod.fst

/-- The flow-control invariant: RTS deasserted with at least `PAUSELEVEL` bytes
of space, RTS asserted with at most `RESUMELEVEL` bytes of space. -/
structure Flow (C : Nat) (s : State) : Prop where
  low : s.RTS = false → C / 4 ≤ s.rx_remaining
  high : s.RTS = true → s.rx_remaining ≤ C / 2

end C51

namespace SDCC

/-- Serial 0 interrupt service routine (`uart0_isr`, `src/SDCC/uart12.c` lines
43-63). -/
def uart0_isr (BUFFERSIZE : Nat) (s : State) : State :=
  let s := if TI s then { set_TI s false with tx_ready := true } else s
  if RI s then
    let s := set_RI s false
    let s := { s with rx_buf := Function.update s.rx_buf s.rx_head s.SBUF0_rx }
    let s := { s with rx_head := ((s.rx_head + 1) % 256) &&& (BUFFERSIZE - 1) }
    let s := { s with rx_remaining := (s.rx_remaining + 255) % 256 }
    if !s.RTS then
      if s.rx_remaining < PAUSELEVEL BUFFERSIZE then { s with RTS := true } else s
    else s
  else s

/-- Initialisation (`uart_init`, `src/SDCC/uart12.c` lines 70-84); `SCON0` is
written before the timer registers here. -/
def uart_init (BUFFERSIZE : Nat) (s : State) : State :=
  let s := { s with rx_head := 0 }
  let s := { s with rx_tail := 0 }
  let s := { s with rx_remaining := BUFFERSIZE % 256 }
  let s := { s with SCON0 := 0x50 }
  let s := { s with TMOD := (s.TMOD &&& 0x0F) ||| 0x20 }
  let s := { s with CKMOD := s.CKMOD ||| 0x10 }
  let s := { s with TH1 := 0xD9 }
  let s := { s with TR1 := true }
  let s := set_REN s true
  let s := set_TI s true
  let s := set_RI s false
  let s := { s with ES0 := true }
  { s with RTS := false }

/-- Function `uart_char_avail` (`src/SDCC/uart12.c` lines 89-91). -/
def uart_char_avail (s : State) : Bool × State :=
  (s.rx_head != s.rx_tail, s)

/-- Function `uart_getchar` (`src/SDCC/uart12.c` lines 97-111); `none` is the
call whose wait loop never exits. -/
def uart_getchar (BUFFERSIZE : Nat) (s : State) : Option (State × Nat) :=
  if s.rx_head == s.rx_tail then none
  else
    let buf := s.rx_buf s.rx_tail
    let s := { s with rx_tail := ((s.rx_tail + 1) % 256) &&& (BUFFERSIZE - 1) }
    let s := { s with rx_remaining := (s.rx_remaining + 1) % 256 }
    let s :=
      if s.RTS then
        if s.rx_remaining > RESUMELEVEL BUFFERSIZE then { s with RTS := false } else s
      else s
    some (s, buf)

/-- Function `uart_putchar` (`src/SDCC/uart12.c` lines 116-122); `none` is the
call whose wait loop never exits. -/
def uart_putchar (c : Nat) (s : State) : Option (State × Nat) :=
  if !s.tx_ready then none
  else
    let s := { s with SBUF0_tx := c }
    let s := { s with tx_ready := false }
    some (s, c)

end SDCC

end Uart12

/-! ## Registers and arithmetic -/

namespace Uart12

set_option maxRecDepth 100000 in
theorem validBufferSize_pow (C : Nat) (h : validBufferSize C) :
    ∃ k, 2 ≤ k ∧ k ≤ 8 ∧ C = 2 ^ k := by
  have key : ∀ n, n ≤ 256 → validBufferSize n → ∃ k, k ≤ 8 ∧ (2 ≤ k ∧ n = 2 ^ k) := by
    decide
  have hle : C ≤ 256 := by
    have := h.2.1
    omega
  obtain ⟨k, h1, h2, h3⟩ := key C hle h
  exact ⟨k, h2, h1, h3⟩

theorem mask_eq_mod (k x : Nat) (hk : k ≤ 8) :
    (x % 256) &&& (2 ^ k - 1) = x % 2 ^ k := by
  rw [Nat.and_pow_two_sub_one_eq_mod]
  have : (2:Nat) ^ k ∣ 256 := by
    have : (256 : Nat) = 2 ^ 8 := by norm_num
    rw [this]
    exact Nat.pow_dvd_pow 2 hk
  exact Nat.mod_mod_of_dvd x this

theorem testBit_writeBit (reg i j : Nat) (b : Bool) (hi : i < 8) (hj : j < 8) :
    (writeBit reg i b).testBit j = if j = i then b else reg.testBit j := by
  have hc : ∀ a, a < 8 → ∀ c, c < 8 →
      (255 - 2 ^ a).testBit c = !decide (c = a) := by decide
  unfold writeBit
  cases b
  · simp only [Bool.false_eq_true, if_false, Nat.testBit_and, hc i hi j hj]
    by_cases h : j = i <;> simp [h]
  · simp only [if_true, Nat.testBit_or, Nat.testBit_two_pow]
    by_cases h : j = i
    · simp [h]
    · have : ¬ i = j := fun e => h e.symm
      simp [h, this]

@[simp] theorem RI_set_RI (s : State) (b : Bool) : RI (set_RI s b) = b := by
  show (writeBit s.SCON0 0 b).testBit 0 = b
  rw [testBit_writeBit _ _ _ _ (by decide) (by decide)]; rfl

@[simp] theorem TI_set_RI (s : State) (b : Bool) : TI (set_RI s b) = TI s := by
  show (writeBit s.SCON0 0 b).testBit 1 = s.SCON0.testBit 1
  rw [testBit_writeBit _ _ _ _ (by decide) (by decide)]; rfl

@[simp] theorem TI_set_TI (s : State) (b : Bool) : TI (set_TI s b) = b := by
  show (writeBit s.SCON0 1 b).testBit 1 = b
  rw [testBit_writeBit _ _ _ _ (by decide) (by decide)]; rfl

@[simp] theorem RI_set_TI (s : State) (b : Bool) : RI (set_TI s b) = RI s := by
  show (writeBit s.SCON0 1 b).testBit 0 = s.SCON0.testBit 0
  rw [testBit_writeBit _ _ _ _ (by decide) (by decide)]; rfl

end Uart12

namespace Uart12.C51
open Uart12

theorem uart0_isr_eq (C : Nat) (s : State) : uart0_isr C s = isr_rx C (isr_tx s) := rfl

theorem isr_tx_RI (s : State) : RI (isr_tx s) = RI s := by
  unfold isr_tx
  split
  · exact RI_set_TI s false
  · rfl

theorem isr_tx_TI (s : State) : TI (isr_tx s) = false := by
  unfold isr_tx
  split
  · exact TI_set_TI s false
  · simpa using ‹¬ TI s = true›

theorem isr_tx_frame (s : State) :
    (isr_tx s).rx_head = s.rx_head ∧ (isr_tx s).rx_tail = s.rx_tail ∧
    (isr_tx s).rx_remaining = s.rx_remaining ∧ (isr_tx s).rx_buf = s.rx_buf ∧
    (isr_tx s).RTS = s.RTS ∧ (isr_tx s).SBUF0_rx = s.SBUF0_rx ∧
    (isr_tx s).tx_ready = (s.tx_ready || TI s) := by
  unfold isr_tx
  split
  · rename_i h; simp [set_TI, h]
  · rename_i h; simp [h]

theorem isr_rx_fields (C : Nat) (s : State) (h : RI s = true) :
    (isr_rx C s).rx_head = ((s.rx_head + 1) % 256) &&& (C - 1) ∧
    (isr_rx C s).rx_tail = s.rx_tail ∧
    (isr_rx C s).rx_remaining = (s.rx_remaining + 255) % 256 ∧
    (isr_rx C s).rx_buf = Function.update s.rx_buf s.rx_head s.SBUF0_rx ∧
    (isr_rx C s).RTS = (s.RTS || decide ((s.rx_remaining + 255) % 256 < PAUSELEVEL C)) ∧
    (isr_rx C s).tx_ready = s.tx_ready ∧
    RI (isr_rx C s) = false ∧ TI (isr_rx C s) = TI s := by
  unfold isr_rx
  rw [if_pos h]
  by_cases hP : s.RTS = true <;>
    by_cases hL : (s.rx_remaining + 255) % 256 < PAUSELEVEL C <;>
    simp [hP, hL, set_RI] <;>
    exact ⟨RI_set_RI s false, TI_set_RI s false⟩

end Uart12.C51

namespace Uart12.C51
open Uart12

theorem valid_mask (C : Nat) (hC : validBufferSize C) (x : Nat) :
    (x % 256) &&& (C - 1) = x % C := by
  obtain ⟨k, _, hk, rfl⟩ := validBufferSize_pow C hC
  exact mask_eq_mod k x hk

theorem valid_pos (C : Nat) (hC : validBufferSize C) : 4 ≤ C ∧ C ≤ 256 := by
  have h1 := hC.1
  have h2 := hC.2.1
  omega

theorem rx_event_fields (C b : Nat) (s : State) :
    (rx_event C b s).rx_head = ((s.rx_head + 1) % 256) &&& (C - 1) ∧
    (rx_event C b s).rx_tail = s.rx_tail ∧
    (rx_event C b s).rx_remaining = (s.rx_remaining + 255) % 256 ∧
    (rx_event C b s).rx_buf = Function.update s.rx_buf s.rx_head b ∧
    (rx_event C b s).RTS = (s.RTS || decide ((s.rx_remaining + 255) % 256 < PAUSELEVEL C)) ∧
    (rx_event C b s).tx_ready = (s.tx_ready || TI s) ∧
    RI (rx_event C b s) = false ∧ TI (rx_event C b s) = false := by
  have hRI : RI (isr_tx (hw_receive b s)) = true := by
    rw [isr_tx_RI]; exact RI_set_RI _ true
  have hTI : TI (hw_receive b s) = TI s := TI_set_RI _ true
  obtain ⟨f1, f2, f3, f4, f5, f6, f7⟩ := isr_tx_frame (hw_receive b s)
  obtain ⟨g1, g2, g3, g4, g5, g6, g7, g8⟩ := isr_rx_fields C _ hRI
  have e : rx_event C b s = isr_rx C (isr_tx (hw_receive b s)) := rfl
  rw [e, g1, g2, g3, g4, g5, g6, g7, g8, f1, f2, f3, f4, f5, f6, f7, hTI, isr_tx_TI]
  exact ⟨rfl, rfl, rfl, rfl, rfl, rfl, rfl, rfl⟩

theorem uart_getchar_none (C : Nat) (s : State) (h : s.rx_head = s.rx_tail) :
    uart_getchar C s = none := by
  simp [uart_getchar, h]

theorem uart_getchar_fields (C : Nat) (s : State) (h : s.rx_head ≠ s.rx_tail) :
    ∃ s', uart_getchar C s = some (s', s.rx_buf s.rx_tail) ∧
      s'.rx_tail = ((s.rx_tail + 1) % 256) &&& (C - 1) ∧
      s'.rx_remaining = (s.rx_remaining + 1) % 256 ∧
      s'.rx_head = s.rx_head ∧ s'.rx_buf = s.rx_buf ∧
      s'.RTS = (s.RTS && !decide ((s.rx_remaining + 1) % 256 > RESUMELEVEL C)) ∧
      s'.tx_ready = s.tx_ready ∧ s'.SCON0 = s.SCON0 := by
  unfold uart_getchar
  have h' : (s.rx_head == s.rx_tail) = false := by simpa using h
  simp only [h', Bool.false_eq_true, if_false]
  by_cases hP : s.RTS = true <;>
    by_cases hL : (s.rx_remaining + 1) % 256 > RESUMELEVEL C <;>
    simp [hP, hL]

theorem uart_getchar_isSome (C : Nat) (s s' : State) (c : Nat)
    (h : uart_getchar C s = some (s', c)) : s.rx_head ≠ s.rx_tail := by
  intro e
  rw [uart_getchar_none C s e] at h
  exact Option.noConfusion h

end Uart12.C51

namespace Uart12.C51
open Uart12

theorem mod_ne_of_lt (C a b : Nat) (hab : a < b) (h : b - a < C) : a % C ≠ b % C := by
  intro e
  have h0 : (b - a) % C = 0 := Nat.sub_mod_eq_zero_of_mod_eq e.symm
  have h1 := Nat.eq_zero_of_dvd_of_lt (Nat.dvd_of_mod_eq_zero h0) h
  omega

theorem Inv_init (C : Nat) (s0 : State) : Inv C (uart_init C s0) [] 0 where
  le := Nat.le_refl _
  cap := by simp
  head := by simp [uart_init, set_REN, set_TI, set_RI]
  tail := by simp [uart_init, set_REN, set_TI, set_RI]
  rem := by simp [uart_init, set_REN, set_TI, set_RI]
  buf := by intro i _ h; simp at h

theorem Inv_recv (C : Nat) (hC : validBufferSize C) (s : State) (hist : List Nat)
    (S b : Nat) (h : Inv C s hist S) (hcap : hist.length + 1 - S ≤ C) :
    Inv C (rx_event C b s) (hist ++ [b]) S := by
  obtain ⟨f1, f2, f3, f4, -⟩ := rx_event_fields C b s
  have hle := h.le
  refine ⟨?_, ?_, ?_, ?_, ?_, ?_⟩
  · simp; omega
  · simp; omega
  · rw [f1, valid_mask C hC, h.head, Nat.mod_add_mod]; simp
  · rw [f2, h.tail]
  · rw [f3, h.rem]
    simp only [List.length_append, List.length_singleton]
    omega
  · intro i hi1 hi2
    rw [f4, h.head]
    simp only [List.length_append, List.length_singleton] at hi2
    by_cases hi : i = hist.length
    · subst hi
      simp [List.getD_append_right]
    · have hlt : i < hist.length := by omega
      have hne : i % C ≠ hist.length % C := mod_ne_of_lt C i _ hlt (by omega)
      rw [Function.update_noteq hne, h.buf i hi1 hlt, List.getD_append _ _ _ _ hlt]

theorem Inv_getc (C : Nat) (hC : validBufferSize C) (s s' : State) (hist : List Nat)
    (S c : Nat) (h : Inv C s hist S) (hg : uart_getchar C s = some (s', c)) :
    Inv C s' hist (S + 1) ∧ c = hist.getD S 0 ∧ S < hist.length := by
  have hne := uart_getchar_isSome C s s' c hg
  obtain ⟨t, ht, g1, g2, g3, g4, -⟩ := uart_getchar_fields C s hne
  rw [ht] at hg
  obtain ⟨rfl, rfl⟩ := Prod.mk.inj (Option.some.inj hg)
  have hle := h.le
  have hlt : S < hist.length := by
    rcases Nat.lt_or_ge S hist.length with h1 | h1
    · exact h1
    · exfalso
      apply hne
      rw [h.head, h.tail]
      have : S = hist.length := by omega
      rw [this]
  refine ⟨⟨?_, ?_, ?_, ?_, ?_, ?_⟩, ?_, hlt⟩
  · omega
  · have := h.cap; omega
  · rw [g3, h.head]
  · rw [g1, valid_mask C hC, h.tail, Nat.mod_add_mod]
  · rw [g2, h.rem]
    have := h.cap
    have := (valid_pos C hC).2
    omega
  · intro i hi1 hi2
    rw [g4]
    exact h.buf i (by omega) hi2
  · rw [h.tail, h.buf S (Nat.le_refl _) hlt]

end Uart12.C51

namespace Uart12.C51
open Uart12

@[simp] theorem recvs_nil : recvs [] = 0 := rfl
@[simp] theorem recvs_recv (b : Nat) (es : List Event) :
    recvs (Event.recv b :: es) = recvs es + 1 := rfl
@[simp] theorem recvs_getc (es : List Event) : recvs (Event.getc :: es) = recvs es := rfl
@[simp] theorem pops_nil : pops [] = 0 := rfl
@[simp] theorem pops_recv (b : Nat) (es : List Event) :
    pops (Event.recv b :: es) = pops es := rfl
@[simp] theorem pops_getc (es : List Event) : pops (Event.getc :: es) = pops es + 1 := rfl
@[simp] theorem delivered_nil : delivered [] = [] := rfl
@[simp] theorem delivered_recv (b : Nat) (es : List Event) :
    delivered (Event.recv b :: es) = b :: delivered es := rfl
@[simp] theorem delivered_getc (es : List Event) :
    delivered (Event.getc :: es) = delivered es := rfl

theorem run_recv (C b : Nat) (s : State) (es : List Event) :
    run C s (Event.recv b :: es) = run C (rx_event C b s) es := by
  simp only [run, step]
  cases run C (rx_event C b s) es with
  | none => rfl
  | some p => rfl

theorem run_getc_none (C : Nat) (s : State) (es : List Event)
    (h : uart_getchar C s = none) : run C s (Event.getc :: es) = none := by
  simp [run, step, h]

theorem run_getc_some (C : Nat) (s s1 : State) (c : Nat) (es : List Event)
    (h : uart_getchar C s = some (s1, c)) :
    run C s (Event.getc :: es) = (run C s1 es).map (fun p => (p.1, c :: p.2)) := by
  simp only [run, step, h]
  cases run C s1 es with
  | none => rfl
  | some p => rfl

theorem run_inv (C : Nat) (hC : validBufferSize C) :
    ∀ (evs : List Event) (s : State) (hist : List Nat) (S : Nat) (s' : State)
      (out : List Nat),
      Inv C s hist S →
      (∀ n, n ≤ evs.length →
        hist.length + recvs (evs.take n) - (S + pops (evs.take n)) ≤ C) →
      run C s evs = some (s', out) →
      Inv C s' (hist ++ delivered evs) (S + pops evs) ∧
        out = ((hist ++ delivered evs).drop S).take (pops evs) := by
  intro evs
  induction evs with
  | nil =>
    intro s hist S s' out hI _ hrun
    simp only [run, Option.some.injEq, Prod.mk.injEq] at hrun
    obtain ⟨rfl, rfl⟩ := hrun
    simpa using hI
  | cons e es ih =>
    intro s hist S s' out hI hpre hrun
    cases e with
    | recv b =>
      rw [run_recv] at hrun
      have h1 := hpre 1 (by simp)
      simp only [List.take_succ_cons, List.take_zero, recvs_recv, recvs_nil, pops_recv,
        pops_nil] at h1
      have hI1 := Inv_recv C hC s hist S b hI (by omega)
      have hpre1 : ∀ n, n ≤ es.length →
          (hist ++ [b]).length + recvs (es.take n) - (S + pops (es.take n)) ≤ C := by
        intro n hn
        have := hpre (n + 1) (by simpa using hn)
        simp only [List.take_succ_cons, recvs_recv, pops_recv] at this
        simp only [List.length_append, List.length_singleton]
        omega
      have := ih _ _ _ _ _ hI1 hpre1 hrun
      simpa using this
    | getc =>
      cases hg : uart_getchar C s with
      | none =>
        rw [run_getc_none C s es hg] at hrun
        exact Option.noConfusion hrun
      | some p =>
        obtain ⟨s1, c⟩ := p
        rw [run_getc_some C s s1 c es hg] at hrun
        obtain ⟨hI1, hc, hlt⟩ := Inv_getc C hC s s1 hist S c hI hg
        cases hr : run C s1 es with
        | none =>
          rw [hr] at hrun
          exact Option.noConfusion hrun
        | some q =>
          obtain ⟨s2, os⟩ := q
          rw [hr] at hrun
          simp only [Option.map_some', Option.some.injEq, Prod.mk.injEq] at hrun
          obtain ⟨rfl, rfl⟩ := hrun
          have hpre1 : ∀ n, n ≤ es.length →
              hist.length + recvs (es.take n) - (S + 1 + pops (es.take n)) ≤ C := by
            intro n hn
            have := hpre (n + 1) (by simpa using hn)
            simp only [List.take_succ_cons, recvs_getc, pops_getc] at this
            omega
          obtain ⟨hI2, ho⟩ := ih _ _ _ _ _ hI1 hpre1 hr
          refine ⟨?_, ?_⟩
          · simpa [Nat.add_assoc, Nat.add_comm 1] using hI2
          · have hlt' : S < (hist ++ delivered es).length := by
              simp only [List.length_append]; omega
            simp only [delivered_getc, pops_getc]
            rw [List.drop_eq_getElem_cons hlt', List.take_succ_cons, ho, hc]
            congr 1
            rw [List.getD_eq_getElem _ _ hlt, List.getElem_append_left hlt]

end Uart12.C51

namespace Uart12.C51
open Uart12

theorem run_total (C : Nat) (hC : validBufferSize C) :
    ∀ (evs : List Event) (s : State) (hist : List Nat) (S : Nat),
      Inv C s hist S →
      (∀ n, n ≤ evs.length →
        S + pops (evs.take n) ≤ hist.length + recvs (evs.take n) ∧
        hist.length + recvs (evs.take n) - (S + pops (evs.take n)) ≤ C - 1) →
      ∃ s' out, run C s evs = some (s', out) := by
  intro evs
  induction evs with
  | nil => intro s _ _ _ _; exact ⟨s, [], rfl⟩
  | cons e es ih =>
    intro s hist S hI hpre
    have hC4 := (valid_pos C hC).1
    cases e with
    | recv b =>
      rw [run_recv]
      have h1 := hpre 1 (by simp)
      simp only [List.take_succ_cons, List.take_zero, recvs_recv, recvs_nil, pops_recv,
        pops_nil] at h1
      have hI1 := Inv_recv C hC s hist S b hI (by omega)
      apply ih _ _ _ hI1
      intro n hn
      have := hpre (n + 1) (by simpa using hn)
      simp only [List.take_succ_cons, recvs_recv, pops_recv] at this
      simp only [List.length_append, List.length_singleton]
      omega
    | getc =>
      have h0 := hpre 0 (Nat.zero_le _)
      have h1 := hpre 1 (by simp)
      simp only [List.take_succ_cons, List.take_zero, recvs_getc, recvs_nil, pops_getc,
        pops_nil] at h0 h1
      have hne : s.rx_head ≠ s.rx_tail := by
        rw [hI.head, hI.tail]
        exact (mod_ne_of_lt C S hist.length (by omega) (by omega)).symm
      obtain ⟨s1, hg, -⟩ := uart_getchar_fields C s hne
      rw [run_getc_some C s s1 _ es hg]
      obtain ⟨hI1, -, -⟩ := Inv_getc C hC s s1 hist S _ hI hg
      have : ∃ s' out, run C s1 es = some (s', out) := by
        apply ih _ _ _ hI1
        intro n hn
        have := hpre (n + 1) (by simpa using hn)
        simp only [List.take_succ_cons, recvs_getc, pops_getc] at this
        omega
      obtain ⟨s', out, hr⟩ := this
      exact ⟨s', _, by rw [hr]; rfl⟩

theorem Idx_init (C : Nat) (s0 : State) : Idx C (uart_init C s0) 0 0 where
  le := Nat.le_refl _
  head := by simp [uart_init, set_REN, set_TI, set_RI]
  tail := by simp [uart_init, set_REN, set_TI, set_RI]

theorem Idx_recv (C : Nat) (hC : validBufferSize C) (s : State) (R S b : Nat)
    (h : Idx C s R S) : Idx C (rx_event C b s) (R + 1) S := by
  obtain ⟨f1, f2, -⟩ := rx_event_fields C b s
  refine ⟨?_, ?_, ?_⟩
  · have := h.le; omega
  · rw [f1, valid_mask C hC, h.head, Nat.mod_add_mod]
  · rw [f2, h.tail]

theorem Idx_getc (C : Nat) (hC : validBufferSize C) (s s' : State) (R S c : Nat)
    (h : Idx C s R S) (hg : uart_getchar C s = some (s', c)) :
    Idx C s' R (S + 1) ∧ R % C ≠ S % C := by
  have hne := uart_getchar_isSome C s s' c hg
  obtain ⟨t, ht, g1, g2, g3, -⟩ := uart_getchar_fields C s hne
  rw [ht] at hg
  obtain ⟨rfl, rfl⟩ := Prod.mk.inj (Option.some.inj hg)
  rw [h.head, h.tail] at hne
  have hle := h.le
  have hlt : S < R := by
    rcases Nat.lt_or_ge S R with h1 | h1
    · exact h1
    · exfalso
      apply hne
      have : S = R := by omega
      rw [this]
  refine ⟨⟨?_, ?_, ?_⟩, hne⟩
  · omega
  · rw [g3, h.head]
  · rw [g1, valid_mask C hC, h.tail, Nat.mod_add_mod]

theorem run_idx (C : Nat) (hC : validBufferSize C) :
    ∀ (evs : List Event) (s : State) (R S : Nat) (s' : State) (out : List Nat),
      Idx C s R S → run C s evs = some (s', out) →
      Idx C s' (R + recvs evs) (S + pops evs) := by
  intro evs
  induction evs with
  | nil =>
    intro s R S s' out hI hrun
    simp only [run, Option.some.injEq, Prod.mk.injEq] at hrun
    obtain ⟨rfl, rfl⟩ := hrun
    simpa using hI
  | cons e es ih =>
    intro s R S s' out hI hrun
    cases e with
    | recv b =>
      rw [run_recv] at hrun
      have := ih _ _ _ _ _ (Idx_recv C hC s R S b hI) hrun
      simpa [Nat.add_assoc, Nat.add_comm 1] using this
    | getc =>
      cases hg : uart_getchar C s with
      | none =>
        rw [run_getc_none C s es hg] at hrun
        exact Option.noConfusion hrun
      | some p =>
        obtain ⟨s1, c⟩ := p
        rw [run_getc_some C s s1 c es hg] at hrun
        cases hr : run C s1 es with
        | none =>
          rw [hr] at hrun
          exact Option.noConfusion hrun
        | some q =>
          obtain ⟨s2, os⟩ := q
          rw [hr] at hrun
          simp only [Option.map_some', Option.some.injEq, Prod.mk.injEq] at hrun
          obtain ⟨rfl, rfl⟩ := hrun
          have := ih _ _ _ _ _ (Idx_getc C hC s s1 R S c hI hg).1 hr
          simpa [Nat.add_assoc, Nat.add_comm 1] using this

end Uart12.C51

namespace Uart12.C51
open Uart12

theorem delivered_append (a b : List Event) :
    delivered (a ++ b) = delivered a ++ delivered b := by
  induction a with
  | nil => rfl
  | cons e es ih => cases e <;> simp [ih]

theorem pops_append (a b : List Event) : pops (a ++ b) = pops a + pops b := by
  induction a with
  | nil => simp
  | cons e es ih =>
    cases e with
    | recv b => simp [ih]
    | getc => simp [ih]; omega

theorem recvs_append (a b : List Event) : recvs (a ++ b) = recvs a + recvs b := by
  simp [recvs, delivered_append]

@[simp] theorem delivered_map_recv (B : List Nat) : delivered (B.map Event.recv) = B := by
  induction B with
  | nil => rfl
  | cons b bs ih => simp [ih]

@[simp] theorem pops_map_recv (B : List Nat) : pops (B.map Event.recv) = 0 := by
  induction B with
  | nil => rfl
  | cons b bs ih => simp [ih]

@[simp] theorem recvs_map_recv (B : List Nat) : recvs (B.map Event.recv) = B.length := by
  simp [recvs]

@[simp] theorem delivered_replicate_getc (m : Nat) :
    delivered (List.replicate m Event.getc) = [] := by
  induction m with
  | zero => rfl
  | succ m ih => simp [List.replicate_succ, ih]

@[simp] theorem recvs_replicate_getc (m : Nat) :
    recvs (List.replicate m Event.getc) = 0 := by
  simp [recvs]

@[simp] theorem pops_replicate_getc (m : Nat) :
    pops (List.replicate m Event.getc) = m := by
  induction m with
  | zero => rfl
  | succ m ih => simp [List.replicate_succ, ih]

theorem run_map_recv (C : Nat) (B : List Nat) (s : State) (es : List Event) :
    run C s (B.map Event.recv ++ es) = run C (rx_events C B s) es := by
  induction B generalizing s with
  | nil => rfl
  | cons b bs ih =>
    simp only [List.map_cons, List.cons_append]
    rw [run_recv, ih]
    rfl

theorem run_init_fifo (C : Nat) (hC : validBufferSize C) (s0 : State) (evs : List Event)
    (s : State) (out : List Nat)
    (hpre : ∀ n, n ≤ evs.length → recvs (evs.take n) - pops (evs.take n) ≤ C)
    (hrun : run C (uart_init C s0) evs = some (s, out)) :
    Inv C s (delivered evs) (pops evs) ∧ out = (delivered evs).take (pops evs) := by
  have := run_inv C hC evs (uart_init C s0) [] 0 s out (Inv_init C s0)
    (by simpa using hpre) hrun
  simpa using this

theorem run_init_total (C : Nat) (hC : validBufferSize C) (s0 : State) (evs : List Event)
    (hpre : ∀ n, n ≤ evs.length →
      pops (evs.take n) ≤ recvs (evs.take n) ∧
      recvs (evs.take n) - pops (evs.take n) ≤ C - 1) :
    ∃ s, run C (uart_init C s0) evs = some (s, (delivered evs).take (pops evs)) := by
  obtain ⟨s, out, hrun⟩ := run_total C hC evs (uart_init C s0) [] 0 (Inv_init C s0)
    (by simpa using hpre)
  have hpre' : ∀ n, n ≤ evs.length → recvs (evs.take n) - pops (evs.take n) ≤ C := by
    intro n hn
    have := (hpre n hn).2
    omega
  obtain ⟨-, ho⟩ := run_init_fifo C hC s0 evs s out hpre' hrun
  exact ⟨s, by rw [hrun, ho]⟩

theorem burst_counts (B : List Nat) (n : Nat) :
    pops ((B.map Event.recv ++ List.replicate B.length Event.getc).take n) ≤
      recvs ((B.map Event.recv ++ List.replicate B.length Event.getc).take n) ∧
    recvs ((B.map Event.recv ++ List.replicate B.length Event.getc).take n) -
      pops ((B.map Event.recv ++ List.replicate B.length Event.getc).take n) ≤ B.length := by
  rw [List.take_append_eq_append_take, recvs_append, pops_append, ← List.map_take,
    List.take_replicate]
  simp only [recvs_map_recv, pops_map_recv, recvs_replicate_getc, pops_replicate_getc,
    List.length_take, List.length_map]
  omega

/-- C1 (as amended): FIFO with no loss up to the usable capacity.  Starting
from the state produced by `uart_init`, for every interleaving of receive events
and `uart_getchar` calls in which, at every prefix, no call is issued on an empty
buffer and the number of unread bytes `R - S` never exceeds `C - 1`, every call
returns and the returned bytes are the first `S` delivered bytes in order; in
particular, for every byte sequence `B` with `|B| ≤ C - 1`, `|B|` receive events
followed by `|B|` `uart_getchar` calls return exactly `B`. -/
theorem C1_fifo_within_usable_capacity (C : Nat) (hC : validBufferSize C) (s0 : State) :
    (∀ evs : List Event,
      (∀ n, n ≤ evs.length →
        pops (evs.take n) ≤ recvs (evs.take n) ∧
        recvs (evs.take n) - pops (evs.take n) ≤ C - 1) →
      ∃ s, run C (uart_init C s0) evs = some (s, (delivered evs).take (pops evs))) ∧
    (∀ B : List Nat, B.length ≤ C - 1 →
      ∃ s, run C (uart_init C s0)
        (B.map Event.recv ++ List.replicate B.length Event.getc) = some (s, B)) := by
  refine ⟨fun evs hpre => run_init_total C hC s0 evs hpre, ?_⟩
  intro B hB
  obtain ⟨s, hs⟩ := run_init_total C hC s0
    (B.map Event.recv ++ List.replicate B.length Event.getc)
    (fun n _ => ⟨(burst_counts B n).1, Nat.le_trans (burst_counts B n).2 hB⟩)
  refine ⟨s, ?_⟩
  rw [hs, delivered_append, pops_append]
  simp

/-- Witness for C1: three bytes received and read back with `BUFFERSIZE = 128`. -/
theorem C1_fifo_within_usable_capacity_witness :
    ∃ s, run 128 (uart_init 128 zeroState)
      ([7, 8, 9].map Event.recv ++ List.replicate 3 Event.getc) = some (s, [7, 8, 9]) :=
  (C1_fifo_within_usable_capacity 128 (by decide) zeroState).2 [7, 8, 9] (by decide)

/-- C1 fails as stated: with `C = BUFFERSIZE = 128` the 128 bytes of `fullBurst`
keep the number of unread bytes within `C` at every prefix, yet after the 128
receive events `rx_head` equals `rx_tail` again and the first `uart_getchar` call
never returns, so the calls do not return the delivered bytes. -/
theorem C1_counterexample :
    fullBurst.length ≤ BUFFERSIZE ∧
    (∀ n, n ≤ (fullBurst.map Event.recv ++
        List.replicate fullBurst.length Event.getc).length →
      recvs ((fullBurst.map Event.recv ++
        List.replicate fullBurst.length Event.getc).take n) -
      pops ((fullBurst.map Event.recv ++
        List.replicate fullBurst.length Event.getc).take n) ≤ BUFFERSIZE) ∧
    run BUFFERSIZE (uart_init BUFFERSIZE zeroState)
      (fullBurst.map Event.recv ++ List.replicate fullBurst.length Event.getc) = none := by
  have hlen : fullBurst.length = 128 := by simp [fullBurst]
  refine ⟨by simp [fullBurst, BUFFERSIZE], ?_, ?_⟩
  · intro n _
    have := (burst_counts fullBurst n).2
    rw [hlen] at this
    exact this
  · have hC : validBufferSize 128 := by decide
    have hrun : run 128 (uart_init 128 zeroState) (fullBurst.map Event.recv ++ []) =
        some (rx_events 128 fullBurst (uart_init 128 zeroState), []) := by
      rw [run_map_recv]; rfl
    rw [List.append_nil] at hrun
    have hI := (run_init_fifo 128 hC zeroState _ _ _ (by
      intro n _
      rw [← List.map_take]
      simp only [recvs_map_recv, pops_map_recv, List.length_take, hlen]
      omega) hrun).1
    have hh := hI.head
    have ht := hI.tail
    simp only [delivered_map_recv, pops_map_recv, hlen] at hh ht
    show run 128 _ _ = none
    rw [run_map_recv, hlen]
    exact run_getc_none 128 _ _ (uart_getchar_none 128 _ (hh.trans ht.symm))

end Uart12.C51

namespace Uart12.C51
open Uart12

theorem take_take_le (evs : List Event) (n m : Nat) (hm : m ≤ (evs.take n).length) :
    (evs.take n).take m = evs.take m ∧ m ≤ evs.length := by
  have h1 : m ≤ n := by
    have := List.length_take_le n evs
    omega
  have h2 : m ≤ evs.length := by
    have := List.length_take n evs
    omega
  refine ⟨?_, h2⟩
  rw [List.take_take, Nat.min_eq_left h1]

theorem run_total_reads (C : Nat) (hC : validBufferSize C) :
    ∀ (evs : List Event) (s : State) (hist : List Nat) (S : Nat),
      Inv C s hist S →
      (∀ n, n ≤ evs.length →
        hist.length + recvs (evs.take n) - (S + pops (evs.take n)) ≤ C) →
      (∀ m, evs[m]? = some Event.getc →
        S + pops (evs.take m) < hist.length + recvs (evs.take m) ∧
        hist.length + recvs (evs.take m) - (S + pops (evs.take m)) < C) →
      ∃ s' out, run C s evs = some (s', out) := by
  intro evs
  induction evs with
  | nil => intro s _ _ _ _ _; exact ⟨s, [], rfl⟩
  | cons e es ih =>
    intro s hist S hI hpre hread
    cases e with
    | recv b =>
      rw [run_recv]
      have h1 := hpre 1 (by simp)
      simp only [List.take_succ_cons, List.take_zero, recvs_recv, recvs_nil, pops_recv,
        pops_nil] at h1
      have hI1 := Inv_recv C hC s hist S b hI (by omega)
      apply ih _ _ _ hI1
      · intro n hn
        have := hpre (n + 1) (by simpa using hn)
        simp only [List.take_succ_cons, recvs_recv, pops_recv] at this
        simp only [List.length_append, List.length_singleton]
        omega
      · intro m hm
        have := hread (m + 1) (by simpa using hm)
        simp only [List.take_succ_cons, recvs_recv, pops_recv] at this
        simp only [List.length_append, List.length_singleton]
        omega
    | getc =>
      have h0 := hread 0 (by simp)
      simp only [List.take_zero, recvs_nil, pops_nil] at h0
      have hne : s.rx_head ≠ s.rx_tail := by
        rw [hI.head, hI.tail]
        exact (mod_ne_of_lt C S hist.length (by omega) (by omega)).symm
      obtain ⟨s1, hg, -⟩ := uart_getchar_fields C s hne
      rw [run_getc_some C s s1 _ es hg]
      obtain ⟨hI1, -, -⟩ := Inv_getc C hC s s1 hist S _ hI hg
      have : ∃ s' out, run C s1 es = some (s', out) := by
        apply ih _ _ _ hI1
        · intro n hn
          have := hpre (n + 1) (by simpa using hn)
          simp only [List.take_succ_cons, recvs_getc, pops_getc] at this
          omega
        · intro m hm
          have := hread (m + 1) (by simpa using hm)
          simp only [List.take_succ_cons, recvs_getc, pops_getc] at this
          omega
      obtain ⟨s', out, hr⟩ := this
      exact ⟨s', _, by rw [hr]; rfl⟩

/-- C2: space accounting.  Starting from `uart_init` (`BUFFERSIZE = 128`, and
likewise every accepted size below 256), take an interleaving of receive events
and `uart_getchar` calls whose number of unread bytes `R - S` never exceeds `C`
at any prefix.  Every prefix in which each `uart_getchar` is issued with an
unread byte the code can see (`0 < R - S < C` at the call) runs to completion,
every call returning, and reaches a state with `rx_remaining = C - (R - S)`; and
in whatever state a prefix reaches, `S ≤ R` and `rx_remaining = C - (R - S)`. -/
theorem C2_space_accounting (C : Nat) (hC : validBufferSize C) (h256 : C < 256)
    (s0 : State) (evs : List Event)
    (hpre : ∀ n, n ≤ evs.length → recvs (evs.take n) - pops (evs.take n) ≤ C) :
    (∀ n : Nat,
      (∀ m, m < n → evs[m]? = some Event.getc →
        pops (evs.take m) < recvs (evs.take m) ∧
        recvs (evs.take m) - pops (evs.take m) < C) →
      ∃ s out, run C (uart_init C s0) (evs.take n) = some (s, out) ∧
        pops (evs.take n) ≤ recvs (evs.take n) ∧
        s.rx_remaining = C - (recvs (evs.take n) - pops (evs.take n))) ∧
    (∀ (n : Nat) (s : State) (out : List Nat),
      run C (uart_init C s0) (evs.take n) = some (s, out) →
      pops (evs.take n) ≤ recvs (evs.take n) ∧
      s.rx_remaining = C - (recvs (evs.take n) - pops (evs.take n))) := by
  have reached : ∀ (n : Nat) (s : State) (out : List Nat),
      run C (uart_init C s0) (evs.take n) = some (s, out) →
      pops (evs.take n) ≤ recvs (evs.take n) ∧
      s.rx_remaining = C - (recvs (evs.take n) - pops (evs.take n)) := by
    intro n s out hrun
    have hpre' : ∀ m, m ≤ (evs.take n).length →
        recvs ((evs.take n).take m) - pops ((evs.take n).take m) ≤ C := by
      intro m hm
      obtain ⟨e, hle⟩ := take_take_le evs n m hm
      rw [e]
      exact hpre m hle
    obtain ⟨hI, -⟩ := run_init_fifo C hC s0 (evs.take n) s out hpre' hrun
    refine ⟨hI.le, ?_⟩
    rw [hI.rem]
    have := hI.cap
    show (C - ((delivered (evs.take n)).length - pops (evs.take n))) % 256 = _
    unfold recvs
    omega
  refine ⟨?_, reached⟩
  intro n hread
  obtain ⟨s, out, hrun⟩ := run_total_reads C hC (evs.take n) (uart_init C s0) [] 0
    (Inv_init C s0)
    (by
      intro m hm
      obtain ⟨e, hle⟩ := take_take_le evs n m hm
      rw [e]
      simpa using hpre m hle)
    (by
      intro m hm
      rw [List.getElem?_take] at hm
      by_cases hmn : m < n
      · rw [if_pos hmn] at hm
        have := hread m hmn hm
        rw [List.take_take, Nat.min_eq_left (Nat.le_of_lt hmn)]
        simpa using this
      · rw [if_neg hmn] at hm
        exact Option.noConfusion hm)
  exact ⟨s, out, hrun, reached n s out hrun⟩

/-- Witness for C2: two bytes received and one read back, `BUFFERSIZE = 128`;
the read returns and `rx_remaining` is `128 - (2 - 1)`. -/
theorem C2_space_accounting_witness :
    ∃ s out, run 128 (uart_init 128 zeroState)
        [Event.recv 7, Event.recv 8, Event.getc] = some (s, out) ∧
      s.rx_remaining = 127 := by
  obtain ⟨s, out, h1, -, h3⟩ :=
    (C2_space_accounting 128 (by decide) (by decide) zeroState
      [Event.recv 7, Event.recv 8, Event.getc] (by decide)).1 3 (by decide)
  exact ⟨s, out, h1, h3⟩

end Uart12.C51

namespace Uart12.C51
open Uart12

theorem rx_events_burst (bs : List Nat) :
    ∀ (s : State) (m : Nat), s.rx_remaining = 128 - m → s.RTS = decide (97 ≤ m) →
      m + bs.length ≤ 128 →
      (rx_events 128 bs s).rx_remaining = 128 - (m + bs.length) ∧
      (rx_events 128 bs s).RTS = decide (97 ≤ m + bs.length) := by
  induction bs with
  | nil => intro s m h1 h2 _; exact ⟨h1, h2⟩
  | cons b bs ih =>
    intro s m h1 h2 h3
    simp only [List.length_cons] at h3
    obtain ⟨-, -, f3, -, f5, -⟩ := rx_event_fields 128 b s
    have hr : (rx_event 128 b s).rx_remaining = 128 - (m + 1) := by
      rw [f3, h1]; omega
    have hp : (rx_event 128 b s).RTS = decide (97 ≤ m + 1) := by
      rw [f5, h2, h1]
      have e : (128 - m + 255) % 256 = 127 - m := by omega
      rw [e]
      by_cases hm : 97 ≤ m
      · have : 97 ≤ m + 1 := by omega
        simp [hm, this]
      · by_cases hm1 : 97 ≤ m + 1
        · have : 127 - m < PAUSELEVEL 128 := by unfold PAUSELEVEL; omega
          simp [hm1, this]
        · have : ¬ 127 - m < PAUSELEVEL 128 := by unfold PAUSELEVEL; omega
          simp [hm, hm1, this]
    have := ih (rx_event 128 b s) (m + 1) hr hp (by omega)
    simpa [rx_events, Nat.add_assoc, Nat.add_comm 1] using this

theorem rx_event_RTS_hold (C b : Nat) (s : State) (h : s.RTS = true) :
    (rx_event C b s).RTS = true := by
  obtain ⟨-, -, -, -, f5, -⟩ := rx_event_fields C b s
  rw [f5, h]; rfl

theorem uart_getchar_RTS (C : Nat) (s s' : State) (c : Nat)
    (hg : uart_getchar C s = some (s', c)) :
    s'.RTS = (s.RTS && !decide (s'.rx_remaining > RESUMELEVEL C)) := by
  have hne := uart_getchar_isSome C s s' c hg
  obtain ⟨t, ht, -, g2, -, -, g5, -⟩ := uart_getchar_fields C s hne
  rw [ht] at hg
  obtain ⟨rfl, rfl⟩ := Prod.mk.inj (Option.some.inj hg)
  rw [g5, g2]

theorem run_RTS_hold (C : Nat) :
    ∀ (evs : List Event) (s s' : State) (out : List Nat),
      s.RTS = true → run C s evs = some (s', out) →
      (∀ n t o, evs[n]? = some Event.getc → run C s (evs.take (n + 1)) = some (t, o) →
        t.rx_remaining ≤ C / 2) →
      s'.RTS = true := by
  intro evs
  induction evs with
  | nil =>
    intro s s' out h hrun _
    simp only [run, Option.some.injEq, Prod.mk.injEq] at hrun
    rw [← hrun.1]; exact h
  | cons e es ih =>
    intro s s' out h hrun hyp
    cases e with
    | recv b =>
      rw [run_recv] at hrun
      apply ih _ _ _ (rx_event_RTS_hold C b s h) hrun
      intro n t o hn hr
      apply hyp (n + 1) t o
      · simpa using hn
      · rw [List.take_succ_cons, run_recv]; exact hr
    | getc =>
      cases hg : uart_getchar C s with
      | none =>
        rw [run_getc_none C s es hg] at hrun
        exact Option.noConfusion hrun
      | some p =>
        obtain ⟨s1, c⟩ := p
        rw [run_getc_some C s s1 c es hg] at hrun
        cases hr : run C s1 es with
        | none =>
          rw [hr] at hrun
          exact Option.noConfusion hrun
        | some q =>
          obtain ⟨s2, os⟩ := q
          rw [hr] at hrun
          simp only [Option.map_some', Option.some.injEq, Prod.mk.injEq] at hrun
          obtain ⟨rfl, rfl⟩ := hrun
          have h0 : s1.rx_remaining ≤ C / 2 := by
            apply hyp 0 s1 [c] (by simp)
            rw [List.take_succ_cons, List.take_zero, run_getc_some C s s1 c [] hg]
            rfl
          have hs1 : s1.RTS = true := by
            rw [uart_getchar_RTS C s s1 c hg, h]
            have : ¬ s1.rx_remaining > RESUMELEVEL C := by unfold RESUMELEVEL; omega
            simp [this]
          apply ih _ _ _ hs1 hr
          intro n t o hn hrn
          apply hyp (n + 1) t (c :: o)
          · simpa using hn
          · rw [List.take_succ_cons, run_getc_some C s s1 c _ hg, hrn]
            rfl

/-- C3: pause threshold and hold.  From `uart_init` with `BUFFERSIZE = 128` and
nothing read, RTS is deasserted after each of the first 96 receive events and
asserted after the 97th, where `rx_remaining = 31 < 32`.  In general a receive
event that finds RTS deasserted asserts it exactly when it leaves `rx_remaining`
strictly below `C/4`; once asserted, RTS stays asserted across a receive event
and across a `uart_getchar` call unless that call leaves `rx_remaining > C/2`,
hence across any run in which no `uart_getchar` call leaves `rx_remaining > C/2`. -/
theorem C3_pause_threshold_and_hold :
    (∀ (s0 : State) (bs : List Nat), bs.length ≤ 96 →
      (rx_events BUFFERSIZE bs (uart_init BUFFERSIZE s0)).RTS = false) ∧
    (∀ (s0 : State) (bs : List Nat), bs.length = 97 →
      (rx_events BUFFERSIZE bs (uart_init BUFFERSIZE s0)).RTS = true ∧
      (rx_events BUFFERSIZE bs (uart_init BUFFERSIZE s0)).rx_remaining = 31 ∧
      31 < PAUSELEVEL BUFFERSIZE) ∧
    (∀ (C b : Nat) (s : State), s.RTS = false →
      ((rx_event C b s).RTS = true ↔ (rx_event C b s).rx_remaining < C / 4)) ∧
    (∀ (C b : Nat) (s : State), s.RTS = true → (rx_event C b s).RTS = true) ∧
    (∀ (C c : Nat) (s s' : State), s.RTS = true → uart_getchar C s = some (s', c) →
      (s'.RTS = false ↔ s'.rx_remaining > C / 2)) ∧
    (∀ (C : Nat) (evs : List Event) (s s' : State) (out : List Nat),
      s.RTS = true → run C s evs = some (s', out) →
      (∀ n t o, evs[n]? = some Event.getc → run C s (evs.take (n + 1)) = some (t, o) →
        t.rx_remaining ≤ C / 2) →
      s'.RTS = true) := by
  have hinit : ∀ s0 : State, (uart_init 128 s0).rx_remaining = 128 - 0 ∧
      (uart_init 128 s0).RTS = decide (97 ≤ 0) := by
    intro s0
    simp [uart_init, set_REN, set_TI, set_RI]
  refine ⟨?_, ?_, ?_, ?_, ?_, ?_⟩
  · intro s0 bs hb
    have := (rx_events_burst bs _ 0 (hinit s0).1 (hinit s0).2 (by omega)).2
    rw [show BUFFERSIZE = 128 from rfl, this]
    simp; omega
  · intro s0 bs hb
    obtain ⟨h1, h2⟩ := rx_events_burst bs _ 0 (hinit s0).1 (hinit s0).2 (by omega)
    rw [show BUFFERSIZE = 128 from rfl, h1, h2, hb]
    refine ⟨by simp, by simp, by decide⟩
  · intro C b s h
    obtain ⟨-, -, f3, -, f5, -⟩ := rx_event_fields C b s
    rw [f5, f3, h]
    simp [PAUSELEVEL]
  · intro C b s h
    exact rx_event_RTS_hold C b s h
  · intro C c s s' h hg
    rw [uart_getchar_RTS C s s' c hg, h]
    simp [RESUMELEVEL]
  · intro C evs s s' out h hrun hyp
    exact run_RTS_hold C evs s s' out h hrun hyp

/-- Witness for C3: ninety-seven receive events from `uart_init` assert RTS, and
it is still asserted after one more receive event and one `uart_getchar` call. -/
theorem C3_pause_threshold_and_hold_witness :
    (rx_events BUFFERSIZE (List.replicate 96 0) (uart_init BUFFERSIZE zeroState)).RTS = false ∧
    ((rx_events BUFFERSIZE (List.replicate 97 0) (uart_init BUFFERSIZE zeroState)).RTS = true ∧
      (rx_events BUFFERSIZE (List.replicate 97 0)
        (uart_init BUFFERSIZE zeroState)).rx_remaining = 31 ∧
      31 < PAUSELEVEL BUFFERSIZE) ∧
    (rx_event 128 5 { zeroState with RTS := true }).RTS = true :=
  ⟨C3_pause_threshold_and_hold.1 zeroState (List.replicate 96 0) (by decide),
   C3_pause_threshold_and_hold.2.1 zeroState (List.replicate 97 0) (by decide),
   C3_pause_threshold_and_hold.2.2.2.1 128 5 { zeroState with RTS := true } rfl⟩

end Uart12.C51

namespace Uart12.C51
open Uart12

theorem run_stuck (C : Nat) (hC : validBufferSize C) :
    ∀ (evs : List Event) (s : State) (R S : Nat) (s' : State) (out : List Nat),
      Idx C s R S → C ≤ R - S → run C s evs = some (s', out) →
      C ≤ R + recvs evs - (S + pops evs) := by
  intro evs
  induction evs with
  | nil => intro s R S s' out _ h _; simpa using h
  | cons e es ih =>
    intro s R S s' out hI h hrun
    cases e with
    | recv b =>
      rw [run_recv] at hrun
      have := ih _ _ _ _ _ (Idx_recv C hC s R S b hI) (by omega) hrun
      simp only [recvs_recv, pops_recv]
      omega
    | getc =>
      cases hg : uart_getchar C s with
      | none =>
        rw [run_getc_none C s es hg] at hrun
        exact Option.noConfusion hrun
      | some p =>
        obtain ⟨s1, c⟩ := p
        rw [run_getc_some C s s1 c es hg] at hrun
        cases hr : run C s1 es with
        | none =>
          rw [hr] at hrun
          exact Option.noConfusion hrun
        | some q =>
          obtain ⟨hI1, hne⟩ := Idx_getc C hC s s1 R S c hI hg
          have hneq : R - S ≠ C := by
            intro e
            apply hne
            have hp := (valid_pos C hC).1
            have : R = S + C := by omega
            rw [this, Nat.add_mod_right]
          have := ih _ _ _ _ _ hI1 (by omega) hr
          simp only [recvs_getc, pops_getc]
          omega

theorem run_no_overflow (C : Nat) (hC : validBufferSize C) :
    ∀ (evs : List Event) (s : State) (R S : Nat) (s' : State) (out : List Nat),
      Idx C s R S → run C s evs = some (s', out) →
      R + recvs evs - (S + pops evs) < C →
      ∀ n, n ≤ evs.length → R + recvs (evs.take n) - (S + pops (evs.take n)) < C := by
  intro evs
  induction evs with
  | nil => intro s R S s' out _ _ h n _; simpa using h
  | cons e es ih =>
    intro s R S s' out hI hrun hfin n hn
    cases n with
    | zero =>
      simp only [List.take_zero, recvs_nil, pops_nil, Nat.add_zero]
      by_contra hcon
      have := run_stuck C hC _ s R S s' out hI (by omega) hrun
      omega
    | succ n =>
      have hn' : n ≤ es.length := by simpa using hn
      cases e with
      | recv b =>
        rw [run_recv] at hrun
        have := ih _ _ _ _ _ (Idx_recv C hC s R S b hI) hrun
          (by simp only [recvs_recv, pops_recv] at hfin; omega) n hn'
        simp only [List.take_succ_cons, recvs_recv, pops_recv]
        omega
      | getc =>
        cases hg : uart_getchar C s with
        | none =>
          rw [run_getc_none C s es hg] at hrun
          exact Option.noConfusion hrun
        | some p =>
          obtain ⟨s1, c⟩ := p
          rw [run_getc_some C s s1 c es hg] at hrun
          cases hr : run C s1 es with
          | none =>
            rw [hr] at hrun
            exact Option.noConfusion hrun
          | some q =>
            have := ih _ _ _ _ _ (Idx_getc C hC s s1 R S c hI hg).1 hr
              (by simp only [recvs_getc, pops_getc] at hfin; omega) n hn'
            simp only [List.take_succ_cons, recvs_getc, pops_getc]
            omega

theorem run_init_fifo_final (C : Nat) (hC : validBufferSize C) (s0 : State)
    (evs : List Event) (s : State) (out : List Nat)
    (hrun : run C (uart_init C s0) evs = some (s, out))
    (hfin : recvs evs - pops evs < C) :
    out = (delivered evs).take (pops evs) := by
  have h := run_no_overflow C hC evs _ 0 0 s out (Idx_init C s0) hrun (by simpa using hfin)
  refine (run_init_fifo C hC s0 evs s out ?_ hrun).2
  intro n hn
  have := h n hn
  simp only [Nat.zero_add] at this
  omega

/-- C4: index bounds and wraparound.  In every state reached from `uart_init` by
any sequence of receive events and `uart_getchar` calls, `rx_head` and `rx_tail`
lie in `[0, C)`, so the cell read or written next is inside `rx_buf`; each
advance, computed as `(i+1) & (C-1)`, equals `(i+1) mod C`.  With `C = 4`, six
receive events interleaved with four reads never leave an index outside `[0, 4)`,
and the four bytes read are the first four bytes written, in order. -/
theorem C4_index_bounds (C : Nat) (hC : validBufferSize C) :
    (∀ (s0 : State) (evs : List Event) (s : State) (out : List Nat),
      run C (uart_init C s0) evs = some (s, out) → s.rx_head < C ∧ s.rx_tail < C) ∧
    (∀ (b : Nat) (s : State),
      (rx_event C b s).rx_head = ((s.rx_head + 1) % 256) &&& (C - 1) ∧
      (rx_event C b s).rx_head = (s.rx_head + 1) % C) ∧
    (∀ (c : Nat) (s s' : State), uart_getchar C s = some (s', c) →
      s'.rx_tail = ((s.rx_tail + 1) % 256) &&& (C - 1) ∧
      s'.rx_tail = (s.rx_tail + 1) % C) ∧
    (∀ (s0 : State) (evs : List Event), recvs evs = 6 → pops evs = 4 →
      (∀ (n : Nat) (s : State) (out : List Nat),
        run 4 (uart_init 4 s0) (evs.take n) = some (s, out) →
        s.rx_head < 4 ∧ s.rx_tail < 4) ∧
      (∀ (s : State) (out : List Nat), run 4 (uart_init 4 s0) evs = some (s, out) →
        out = (delivered evs).take 4)) := by
  have hpos : 0 < C := by have := (valid_pos C hC).1; omega
  have h4 : validBufferSize 4 := by decide
  have bound : ∀ (D : Nat), validBufferSize D → ∀ (s0 : State) (evs : List Event)
      (s : State) (out : List Nat),
      run D (uart_init D s0) evs = some (s, out) → s.rx_head < D ∧ s.rx_tail < D := by
    intro D hD s0 evs s out hrun
    have hI := run_idx D hD evs _ 0 0 s out (Idx_init D s0) hrun
    have hp : 0 < D := by have := (valid_pos D hD).1; omega
    rw [hI.head, hI.tail]
    exact ⟨Nat.mod_lt _ hp, Nat.mod_lt _ hp⟩
  refine ⟨bound C hC, ?_, ?_, ?_⟩
  · intro b s
    obtain ⟨f1, -⟩ := rx_event_fields C b s
    exact ⟨f1, by rw [f1, valid_mask C hC]⟩
  · intro c s s' hg
    have hne := uart_getchar_isSome C s s' c hg
    obtain ⟨t, ht, g1, -⟩ := uart_getchar_fields C s hne
    rw [ht] at hg
    obtain ⟨rfl, rfl⟩ := Prod.mk.inj (Option.some.inj hg)
    exact ⟨g1, by rw [g1, valid_mask C hC]⟩
  · intro s0 evs hR hS
    refine ⟨fun n s out hrun => bound 4 h4 s0 _ s out hrun, ?_⟩
    intro s out hrun
    have := run_init_fifo_final 4 h4 s0 evs s out hrun (by rw [hR, hS]; decide)
    rw [this, hS]

/-- Witness for C4: in `wrapScenario` the head index wraps past the end of the
buffer, every read returns, and the reads return `1, 2, 3, 4`. -/
theorem C4_index_bounds_witness :
    (run 4 (uart_init 4 zeroState) wrapScenario).map Prod.snd = some [1, 2, 3, 4] := by
  have hs : (run 4 (uart_init 4 zeroState) wrapScenario).isSome = true := by decide
  cases h : run 4 (uart_init 4 zeroState) wrapScenario with
  | none => rw [h] at hs; exact absurd hs (by decide)
  | some p =>
    obtain ⟨s, out⟩ := p
    have := ((C4_index_bounds 4 (by decide)).2.2.2 zeroState wrapScenario
      (by decide) (by decide)).2 s out h
    rw [this]
    rfl

end Uart12.C51

namespace Uart12.C51
open Uart12

/-- C5: the `uart_getchar` step.  For every state with `rx_head ≠ rx_tail` the
call returns `rx_buf[rx_tail]`, sets `rx_tail` to `(rx_tail + 1) mod C`,
increments the 8-bit counter `rx_remaining` by one (modulo 256, so exactly one
more whenever it was below 255), leaves `rx_head` and the buffer contents
unchanged, and afterwards RTS is asserted iff it was asserted before the call and
the new `rx_remaining` is at most `C/2`; a read never asserts RTS. -/
theorem C5_getchar_step (C : Nat) (hC : validBufferSize C) (s : State)
    (h : s.rx_head ≠ s.rx_tail) :
    ∃ s', uart_getchar C s = some (s', s.rx_buf s.rx_tail) ∧
      s'.rx_tail = (s.rx_tail + 1) % C ∧
      s'.rx_remaining = (s.rx_remaining + 1) % 256 ∧
      (s.rx_remaining < 255 → s'.rx_remaining = s.rx_remaining + 1) ∧
      s'.rx_head = s.rx_head ∧
      s'.rx_buf = s.rx_buf ∧
      (s'.RTS = true ↔ s.RTS = true ∧ s'.rx_remaining ≤ C / 2) ∧
      (s.RTS = false → s'.RTS = false) := by
  obtain ⟨t, ht, g1, g2, g3, g4, g5, -⟩ := uart_getchar_fields C s h
  refine ⟨t, ht, ?_, g2, ?_, g3, g4, ?_, ?_⟩
  · rw [g1, valid_mask C hC]
  · intro hlt; rw [g2]; omega
  · rw [g5, g2]
    simp [RESUMELEVEL]
  · intro hP; rw [g5, hP]; rfl

/-- Witness for C5: one unread byte in a buffer of 128 cells. -/
theorem C5_getchar_step_witness :
    ∃ s', uart_getchar 128 { zeroState with rx_head := 1 } = some (s', 0) ∧
      s'.rx_tail = 1 ∧ s'.rx_remaining = 1 := by
  obtain ⟨s', h1, h2, h3, -⟩ :=
    C5_getchar_step 128 (by decide) { zeroState with rx_head := 1 } (by decide)
  exact ⟨s', h1, h2, h3⟩

/-- C6: the receive step.  For every state with RI pending, one `uart0_isr`
invocation clears RI, stores the received byte `SBUF0` at `rx_buf[old rx_head]`,
sets `rx_head` to `(rx_head + 1) mod C`, decrements the 8-bit counter
`rx_remaining` by one (modulo 256, so exactly one less whenever it was between 1
and 255), leaves `rx_tail` and every other buffer cell unchanged, and afterwards
RTS is asserted iff it was asserted before or the new `rx_remaining` is below
`C/4`; a receive event never deasserts RTS. -/
theorem C6_receive_step (C : Nat) (hC : validBufferSize C) (s : State)
    (h : RI s = true) :
    RI (uart0_isr C s) = false ∧
    (uart0_isr C s).rx_buf s.rx_head = s.SBUF0_rx ∧
    (uart0_isr C s).rx_head = (s.rx_head + 1) % C ∧
    (uart0_isr C s).rx_remaining = (s.rx_remaining + 255) % 256 ∧
    (0 < s.rx_remaining → s.rx_remaining < 256 →
      (uart0_isr C s).rx_remaining = s.rx_remaining - 1) ∧
    (uart0_isr C s).rx_tail = s.rx_tail ∧
    (∀ i, i ≠ s.rx_head → (uart0_isr C s).rx_buf i = s.rx_buf i) ∧
    ((uart0_isr C s).RTS = true ↔
      s.RTS = true ∨ (uart0_isr C s).rx_remaining < C / 4) ∧
    (s.RTS = true → (uart0_isr C s).RTS = true) := by
  have hRI : RI (isr_tx s) = true := by rw [isr_tx_RI]; exact h
  obtain ⟨f1, f2, f3, f4, f5, f6, -⟩ := isr_tx_frame s
  obtain ⟨g1, g2, g3, g4, g5, -, g7, -⟩ := isr_rx_fields C _ hRI
  rw [uart0_isr_eq, g1, g2, g3, g4, g5, g7, f1, f2, f3, f4, f5, f6, valid_mask C hC]
  refine ⟨rfl, by simp, rfl, rfl, ?_, rfl, ?_, ?_, ?_⟩
  · intro h0 h1; omega
  · intro i hi
    exact Function.update_noteq hi _ _
  · simp [PAUSELEVEL]
  · intro hP; rw [hP]; rfl

/-- Witness for C6: byte 65 arrives in the state right after `uart_init`. -/
theorem C6_receive_step_witness :
    (uart0_isr 128 (hw_receive 65 (uart_init 128 zeroState))).rx_buf 0 = 65 ∧
    (uart0_isr 128 (hw_receive 65 (uart_init 128 zeroState))).rx_head = 1 ∧
    (uart0_isr 128 (hw_receive 65 (uart_init 128 zeroState))).rx_remaining = 127 := by
  have h := C6_receive_step 128 (by decide) (hw_receive 65 (uart_init 128 zeroState))
    (by decide)
  exact ⟨h.2.1, h.2.2.1, h.2.2.2.1⟩

end Uart12.C51

namespace Uart12.C51
open Uart12

theorem uart_char_avail_fst (s : State) :
    (uart_char_avail s).1 = (s.rx_head != s.rx_tail) := rfl

/-- C7 (as amended): `uart_char_avail` is true after a receive event and before
the corresponding read, up to the usable capacity.  Starting from `uart_init`, for
every interleaving whose number of unread bytes `R - S` never exceeds `C - 1` at
any prefix, `uart_char_avail` returns true in every state reached with unread
bytes (`R > S`), in particular in every state reached right after a receive
event. -/
theorem C7_char_avail_after_receive (C : Nat) (hC : validBufferSize C) (s0 : State)
    (evs : List Event)
    (hpre : ∀ n, n ≤ evs.length → recvs (evs.take n) - pops (evs.take n) ≤ C - 1) :
    (∀ (n : Nat) (s : State) (out : List Nat),
      run C (uart_init C s0) (evs.take n) = some (s, out) →
      pops (evs.take n) < recvs (evs.take n) → (uart_char_avail s).1 = true) ∧
    (∀ (n b : Nat) (s : State) (out : List Nat), evs[n]? = some (Event.recv b) →
      run C (uart_init C s0) (evs.take (n + 1)) = some (s, out) →
      (uart_char_avail s).1 = true) := by
  have hC4 := (valid_pos C hC).1
  have main : ∀ (n : Nat) (s : State) (out : List Nat),
      run C (uart_init C s0) (evs.take n) = some (s, out) →
      pops (evs.take n) ≤ recvs (evs.take n) ∧
      (pops (evs.take n) < recvs (evs.take n) → (uart_char_avail s).1 = true) := by
    intro n s out hrun
    have hI := run_idx C hC (evs.take n) _ 0 0 s out (Idx_init C s0) hrun
    simp only [Nat.zero_add] at hI
    refine ⟨hI.le, ?_⟩
    intro hlt
    have hb : recvs (evs.take n) - pops (evs.take n) ≤ C - 1 := by
      rcases Nat.le_total n evs.length with h1 | h1
      · exact hpre n h1
      · rw [List.take_of_length_le h1]
        have := hpre evs.length (Nat.le_refl _)
        rwa [List.take_length] at this
    have hne := mod_ne_of_lt C _ _ hlt (by omega)
    show (s.rx_head != s.rx_tail) = true
    rw [hI.head, hI.tail]
    simpa using fun e => hne e.symm
  refine ⟨fun n s out hrun hlt => (main n s out hrun).2 hlt, ?_⟩
  intro n b s out hn hrun
  apply (main (n + 1) s out hrun).2
  have hlen : n < evs.length := by
    rcases Nat.lt_or_ge n evs.length with h1 | h1
    · exact h1
    · rw [List.getElem?_eq_none h1] at hn
      exact Option.noConfusion hn
  have hsplit : evs.take (n + 1) = evs.take n ++ [Event.recv b] := by
    rw [List.take_succ, hn]; rfl
  rw [hsplit] at hrun ⊢
  rw [recvs_append, pops_append]
  simp only [recvs_recv, recvs_nil, pops_recv, pops_nil]
  cases hr : run C (uart_init C s0) (evs.take n) with
  | none =>
    exfalso
    have : ∀ (a b : List Event) (t : State), run C t a = none → run C t (a ++ b) = none := by
      intro a
      induction a with
      | nil => intro b t h; exact Option.noConfusion h
      | cons e es ih =>
        intro b t h
        cases e with
        | recv x =>
          rw [run_recv] at h
          rw [List.cons_append, run_recv]
          exact ih b _ h
        | getc =>
          cases hg : uart_getchar C t with
          | none => exact run_getc_none C t _ hg
          | some p =>
            obtain ⟨t1, c⟩ := p
            rw [run_getc_some C t t1 c _ hg] at h
            rw [List.cons_append, run_getc_some C t t1 c _ hg]
            cases hq : run C t1 es with
            | none => rw [ih b t1 hq]; rfl
            | some q => rw [hq] at h; exact Option.noConfusion h
    rw [this _ _ _ hr] at hrun
    exact Option.noConfusion hrun
  | some p =>
    obtain ⟨t, o⟩ := p
    have := (main n t o hr).1
    omega

/-- Witness for C7: one byte received after `uart_init`, `BUFFERSIZE = 128`. -/
theorem C7_char_avail_after_receive_witness :
    (uart_char_avail (rx_event 128 65 (uart_init 128 zeroState))).1 = true :=
  (C7_char_avail_after_receive 128 (by decide) zeroState [Event.recv 65] (by decide)).1 1
    (rx_event 128 65 (uart_init 128 zeroState)) [] rfl (by decide)

/-- C7 fails as stated: with `C = BUFFERSIZE = 128`, the 128 receive events
delivering `fullBurst` keep `R - S ≤ C` at every prefix, yet in the state right
after the 128th receive event, with 128 unread bytes, `uart_char_avail` returns
false. -/
theorem C7_counterexample :
    (∀ n, n ≤ (fullBurst.map Event.recv).length →
      recvs ((fullBurst.map Event.recv).take n) -
        pops ((fullBurst.map Event.recv).take n) ≤ BUFFERSIZE) ∧
    pops (fullBurst.map Event.recv) < recvs (fullBurst.map Event.recv) ∧
    run BUFFERSIZE (uart_init BUFFERSIZE zeroState) (fullBurst.map Event.recv) =
      some (rx_events BUFFERSIZE fullBurst (uart_init BUFFERSIZE zeroState), []) ∧
    (uart_char_avail
      (rx_events BUFFERSIZE fullBurst (uart_init BUFFERSIZE zeroState))).1 = false := by
  have hlen : fullBurst.length = 128 := by simp [fullBurst]
  have hC : validBufferSize 128 := by decide
  have hpre : ∀ n, n ≤ (fullBurst.map Event.recv).length →
      recvs ((fullBurst.map Event.recv).take n) -
        pops ((fullBurst.map Event.recv).take n) ≤ 128 := by
    intro n _
    rw [← List.map_take]
    simp only [recvs_map_recv, pops_map_recv, List.length_take, hlen]
    omega
  have hrun : run 128 (uart_init 128 zeroState) (fullBurst.map Event.recv) =
      some (rx_events 128 fullBurst (uart_init 128 zeroState), []) := by
    have := run_map_recv 128 fullBurst (uart_init 128 zeroState) []
    rw [List.append_nil] at this
    rw [this]; rfl
  have e128 : BUFFERSIZE = 128 := rfl
  rw [e128]
  refine ⟨hpre, ?_, hrun, ?_⟩
  · simp [hlen]
  · have hI := (run_init_fifo 128 hC zeroState _ _ _ hpre hrun).1
    have hh := hI.head
    have ht := hI.tail
    simp only [delivered_map_recv, pops_map_recv, hlen] at hh ht
    rw [uart_char_avail_fst, hh, ht]
    rfl

end Uart12.C51

namespace Uart12.C51
open Uart12

/-- C8: `uart_char_avail` returns false in the state produced by `uart_init`,
whatever the state before, and returns false in every state reached from
`uart_init` in which every delivered byte has been read (`R = S`); the call
itself changes no state. -/
theorem C8_char_avail_empty (C : Nat) (hC : validBufferSize C) :
    (∀ s0 : State, (uart_char_avail (uart_init C s0)).1 = false) ∧
    (∀ (s0 : State) (evs : List Event) (s : State) (out : List Nat),
      run C (uart_init C s0) evs = some (s, out) → recvs evs = pops evs →
      (uart_char_avail s).1 = false) ∧
    (∀ s : State, (uart_char_avail s).2 = s) := by
  refine ⟨?_, ?_, fun _ => rfl⟩
  · intro s0
    have hI := Idx_init C s0
    rw [uart_char_avail_fst, hI.head, hI.tail]
    simp
  · intro s0 evs s out hrun hRS
    have hI := run_idx C hC evs _ 0 0 s out (Idx_init C s0) hrun
    simp only [Nat.zero_add] at hI
    rw [uart_char_avail_fst, hI.head, hI.tail, hRS]
    simp

/-- Witness for C8: two bytes received and both read, `BUFFERSIZE = 128`. -/
theorem C8_char_avail_empty_witness :
    (uart_char_avail (uart_init 128 zeroState)).1 = false ∧
    ((run 128 (uart_init 128 zeroState)
      [Event.recv 1, Event.getc, Event.recv 2, Event.getc]).map
        (fun p => (uart_char_avail p.1).1)) = some false := by
  refine ⟨(C8_char_avail_empty 128 (by decide)).1 zeroState, ?_⟩
  cases h : run 128 (uart_init 128 zeroState)
      [Event.recv 1, Event.getc, Event.recv 2, Event.getc] with
  | none =>
    have hs : (run 128 (uart_init 128 zeroState)
      [Event.recv 1, Event.getc, Event.recv 2, Event.getc]).isSome = true := by decide
    rw [h] at hs
    exact absurd hs (by decide)
  | some p =>
    obtain ⟨s, out⟩ := p
    have := (C8_char_avail_empty 128 (by decide)).2.1 zeroState _ s out h (by decide)
    simp [this]

/-- C9 (as amended): `uart_init` does not write `tx_ready`; it raises the
transmit interrupt flag TI with the serial interrupt enabled, and the first
`uart0_isr` invocation after `uart_init` clears TI and sets `tx_ready`, after
which a first `uart_putchar` proceeds without waiting. -/
theorem C9_tx_ready_after_init (C : Nat) (s0 : State) :
    (uart_init C s0).tx_ready = s0.tx_ready ∧
    TI (uart_init C s0) = true ∧
    (uart_init C s0).ES0 = true ∧
    (uart0_isr C (uart_init C s0)).tx_ready = true ∧
    TI (uart0_isr C (uart_init C s0)) = false ∧
    (∀ c : Nat, ∃ s', uart_putchar c (uart0_isr C (uart_init C s0)) = some (s', c)) := by
  have hS : (uart_init C s0).SCON0 = 0x52 := by
    show writeBit (writeBit (writeBit 0x50 4 true) 1 true) 0 false = 0x52
    decide
  have hTI : TI (uart_init C s0) = true := by
    unfold TI; rw [hS]; decide
  have hRI : RI (uart_init C s0) = false := by
    unfold RI; rw [hS]; decide
  have hrdy : (uart0_isr C (uart_init C s0)).tx_ready = true := by
    have hx : (isr_tx (uart_init C s0)).tx_ready = true := by
      rw [(isr_tx_frame _).2.2.2.2.2.2, hTI]; simp
    have hr : RI (isr_tx (uart_init C s0)) = false := by rw [isr_tx_RI]; exact hRI
    rw [uart0_isr_eq]
    unfold isr_rx
    simp [hr, hx]
  have hti : TI (uart0_isr C (uart_init C s0)) = false := by
    have hr : RI (isr_tx (uart_init C s0)) = false := by rw [isr_tx_RI]; exact hRI
    rw [uart0_isr_eq]
    unfold isr_rx
    simp only [hr, Bool.false_eq_true, if_false]
    exact isr_tx_TI _
  refine ⟨rfl, hTI, rfl, hrdy, hti, ?_⟩
  intro c
  unfold uart_putchar
  simp [hrdy]

/-- C9 fails as stated: from the all-zero state, where `tx_ready` is false,
`uart_init` leaves `tx_ready` false and a `uart_putchar` issued right after it
waits. -/
theorem C9_counterexample :
    (uart_init BUFFERSIZE zeroState).tx_ready = false ∧
    uart_putchar 65 (uart_init BUFFERSIZE zeroState) = none :=
  ⟨rfl, rfl⟩

/-- C10: the `uart_putchar` postcondition.  For every byte `c` and every state
with `tx_ready` true, `uart_putchar c` returns `c`, has written `c` to the
transmit register `SBUF0` and leaves `tx_ready` false. -/
theorem C10_putchar_post (c : Nat) (s : State) (h : s.tx_ready = true) :
    ∃ s', uart_putchar c s = some (s', c) ∧ s'.SBUF0_tx = c ∧ s'.tx_ready = false := by
  unfold uart_putchar
  simp [h]

/-- Witness for C10: byte 65 sent from a state with `tx_ready` set. -/
theorem C10_putchar_post_witness :
    ∃ s', uart_putchar 65 { zeroState with tx_ready := true } = some (s', 65) ∧
      s'.SBUF0_tx = 65 ∧ s'.tx_ready = false :=
  C10_putchar_post 65 { zeroState with tx_ready := true } rfl

end Uart12.C51

namespace Uart12.C51
open Uart12

theorem uart0_isr_tx_ready (C : Nat) (s : State) :
    (uart0_isr C s).tx_ready = (s.tx_ready || TI s) ∧ TI (uart0_isr C s) = false := by
  obtain ⟨-, -, -, -, -, -, f7⟩ := isr_tx_frame s
  have hx : ∀ t : State, (isr_rx C t).tx_ready = t.tx_ready ∧ TI (isr_rx C t) = TI t := by
    intro t
    by_cases hR : RI t = true
    · obtain ⟨-, -, -, -, -, g6, -, g8⟩ := isr_rx_fields C t hR
      exact ⟨g6, g8⟩
    · unfold isr_rx
      simp [hR]
  rw [uart0_isr_eq, (hx _).1, (hx _).2, f7, isr_tx_TI]
  exact ⟨rfl, rfl⟩

theorem uart_init_tx_ready (C : Nat) (s : State) : (uart_init C s).tx_ready = s.tx_ready := rfl

theorem uart_getchar_tx_ready (C : Nat) (s s' : State) (c : Nat)
    (h : uart_getchar C s = some (s', c)) : s'.tx_ready = s.tx_ready := by
  have hne := uart_getchar_isSome C s s' c h
  obtain ⟨t, ht, -, -, -, -, -, g6, -⟩ := uart_getchar_fields C s hne
  rw [ht] at h
  obtain ⟨rfl, rfl⟩ := Prod.mk.inj (Option.some.inj h)
  exact g6

theorem uart_putchar_some (c : Nat) (s s' : State) (r : Nat)
    (h : uart_putchar c s = some (s', r)) :
    s.tx_ready = true ∧ s'.tx_ready = false ∧ r = c ∧ s'.SBUF0_tx = c := by
  unfold uart_putchar at h
  by_cases hr : s.tx_ready = true
  · simp only [hr, Bool.not_true, Bool.false_eq_true, if_false, Option.some.injEq,
      Prod.mk.injEq] at h
    obtain ⟨rfl, rfl⟩ := h
    exact ⟨hr, rfl, rfl, rfl⟩
  · simp [hr] at h

theorem bool_no_flip {P Q : Prop} (a : Bool) :
    (a = false → a = true → P) ∧ (a = true → a = false → Q) := by
  cases a <;> simp

theorem opStep_tx_ready (C : Nat) (op : Op) (s s' : State)
    (h : opStep C s op = some s') :
    (s.tx_ready = false → s'.tx_ready = true →
      op = Op.isr ∧ TI s = true ∧ TI s' = false) ∧
    (s.tx_ready = true → s'.tx_ready = false → ∃ c, op = Op.putc c) := by
  cases op with
  | isr =>
    simp only [opStep, Option.some.injEq] at h
    subst h
    obtain ⟨h1, h2⟩ := uart0_isr_tx_ready C s
    refine ⟨fun hf ht => ⟨rfl, ?_, h2⟩, fun ht hf => ?_⟩
    · rw [h1, hf] at ht; simpa using ht
    · rw [h1, ht] at hf; simp at hf
  | init =>
    simp only [opStep, Option.some.injEq] at h
    subst h
    rw [uart_init_tx_ready]
    exact bool_no_flip _
  | avail =>
    simp only [opStep, Option.some.injEq] at h
    subst h
    show (s.tx_ready = false → s.tx_ready = true → _) ∧ (s.tx_ready = true → s.tx_ready = false → _)
    exact bool_no_flip _
  | getc =>
    simp only [opStep] at h
    cases hg : uart_getchar C s with
    | none => rw [hg] at h; cases h
    | some p =>
      obtain ⟨t, c⟩ := p
      rw [hg] at h
      simp only [Option.map_some', Option.some.injEq] at h
      subst h
      rw [uart_getchar_tx_ready C s t c hg]
      exact bool_no_flip _
  | putc c =>
    simp only [opStep] at h
    cases hp : uart_putchar c s with
    | none => rw [hp] at h; cases h
    | some p =>
      obtain ⟨t, r⟩ := p
      rw [hp] at h
      simp only [Option.map_some', Option.some.injEq] at h
      subst h
      obtain ⟨h1, h2, -⟩ := uart_putchar_some c s t r hp
      exact ⟨fun hf _ => absurd (hf.symm.trans h1) (by decide), fun _ _ => ⟨c, rfl⟩⟩
  | hwrx b =>
    simp only [opStep, Option.some.injEq] at h
    subst h
    show (s.tx_ready = false → s.tx_ready = true → _) ∧ (s.tx_ready = true → s.tx_ready = false → _)
    exact bool_no_flip _
  | hwtx =>
    simp only [opStep, Option.some.injEq] at h
    subst h
    show (s.tx_ready = false → s.tx_ready = true → _) ∧ (s.tx_ready = true → s.tx_ready = false → _)
    exact bool_no_flip _

theorem opsRun_served (C : Nat) :
    ∀ (ops : List Op) (s t : State), s.tx_ready = false → opsRun C s ops = some t →
      t.tx_ready = true → servedTI C s ops = true := by
  intro ops
  induction ops with
  | nil =>
    intro s t hf hrun ht
    simp only [opsRun, Option.some.injEq] at hrun
    subst hrun
    rw [hf] at ht; cases ht
  | cons op ops ih =>
    intro s t hf hrun ht
    simp only [opsRun] at hrun
    cases hs : opStep C s op with
    | none => rw [hs] at hrun; cases hrun
    | some s1 =>
      rw [hs] at hrun
      simp only at hrun
      simp only [servedTI, hs]
      by_cases h1 : s1.tx_ready = true
      · obtain ⟨rfl, hTI, -⟩ := (opStep_tx_ready C op s s1 hs).1 hf h1
        simp [hTI]
      · have h1' : s1.tx_ready = false := by simpa using h1
        rw [ih s1 t h1' hrun ht]
        simp

end Uart12.C51

namespace Uart12.C51
open Uart12

theorem opsRun_append (C : Nat) (a b : List Op) :
    ∀ s : State, opsRun C s (a ++ b) = (opsRun C s a).bind (fun t => opsRun C t b) := by
  induction a with
  | nil => intro s; rfl
  | cons op ops ih =>
    intro s
    simp only [List.cons_append, opsRun]
    cases opStep C s op with
    | none => rfl
    | some s1 => exact ih s1

/-- C11: the transmit readiness state machine.  After a `uart_putchar` has
returned, `tx_ready` is false and a second `uart_putchar` does not proceed; in
any sequence of operations after it, a second `uart_putchar` returns only if a
`uart0_isr` invocation with TI pending has run in between.  `tx_ready` changes
from false to true only in a `uart0_isr` invocation with TI pending, which also
clears TI, and from true to false only in `uart_putchar`. -/
theorem C11_tx_ready_machine (C : Nat) :
    (∀ (c r : Nat) (s s' : State), uart_putchar c s = some (s', r) →
      s'.tx_ready = false ∧ ∀ c2, uart_putchar c2 s' = none) ∧
    (∀ (c r c2 : Nat) (s s' t : State) (ops : List Op),
      uart_putchar c s = some (s', r) →
      opsRun C s' (ops ++ [Op.putc c2]) = some t → servedTI C s' ops = true) ∧
    (∀ (op : Op) (s s' : State), opStep C s op = some s' →
      s.tx_ready = false → s'.tx_ready = true →
      op = Op.isr ∧ TI s = true ∧ TI s' = false) ∧
    (∀ (op : Op) (s s' : State), opStep C s op = some s' →
      s.tx_ready = true → s'.tx_ready = false → ∃ c, op = Op.putc c) ∧
    (∀ s : State, TI s = true →
      (uart0_isr C s).tx_ready = true ∧ TI (uart0_isr C s) = false) := by
  refine ⟨?_, ?_, ?_, ?_, ?_⟩
  · intro c r s s' h
    obtain ⟨-, h2, -⟩ := uart_putchar_some c s s' r h
    refine ⟨h2, fun c2 => ?_⟩
    unfold uart_putchar
    simp [h2]
  · intro c r c2 s s' t ops h hrun
    obtain ⟨-, h2, -⟩ := uart_putchar_some c s s' r h
    rw [opsRun_append] at hrun
    cases h1 : opsRun C s' ops with
    | none => rw [h1] at hrun; cases hrun
    | some t1 =>
      rw [h1] at hrun
      simp only [Option.some_bind, opsRun, opStep] at hrun
      cases hp : uart_putchar c2 t1 with
      | none => rw [hp] at hrun; cases hrun
      | some p =>
        obtain ⟨t2, r2⟩ := p
        obtain ⟨hr, -⟩ := uart_putchar_some c2 t1 t2 r2 hp
        exact opsRun_served C ops s' t1 h2 h1 hr
  · intro op s s' h
    exact (opStep_tx_ready C op s s' h).1
  · intro op s s' h
    exact (opStep_tx_ready C op s s' h).2
  · intro s hT
    obtain ⟨h1, h2⟩ := uart0_isr_tx_ready C s
    rw [h1, hT]
    exact ⟨by simp, h2⟩

/-- Witness for C11: after byte 65 has been handed to the transmitter, a second
`uart_putchar` does not proceed. -/
theorem C11_tx_ready_machine_witness :
    uart_putchar 66
      { zeroState with SBUF0_tx := 65, tx_ready := false } = none :=
  ((C11_tx_ready_machine 128).1 65 65 { zeroState with tx_ready := true }
    { zeroState with SBUF0_tx := 65, tx_ready := false } rfl).2 66

end Uart12.C51

namespace Uart12.C51
open Uart12

theorem scon_replay (x : Nat) :
    writeBit (writeBit (writeBit (writeBit x 0 false) 1 false) 0 true) 0 false =
      writeBit (writeBit x 1 false) 0 false := by
  unfold writeBit
  simp only [Bool.false_eq_true, if_false, if_true]
  apply Nat.eq_of_testBit_eq
  intro j
  simp only [Nat.testBit_and, Nat.testBit_or]
  rcases j with _ | j
  · have h : Nat.testBit (255 - 2 ^ 0) 0 = false := by decide
    rw [h]; simp
  · have h : Nat.testBit (2 ^ 0) (j + 1) = false := by
      rw [Nat.testBit_two_pow]; simp
    rw [h]
    cases x.testBit (j + 1) <;> cases Nat.testBit (255 - 2 ^ 0) (j + 1) <;>
      cases Nat.testBit (255 - 2 ^ 1) (j + 1) <;> rfl

theorem isr_rx_congr (C : Nat) (u v : State) (hu : RI u = true) (hv : RI v = true)
    (h : u = { v with SCON0 := u.SCON0 })
    (hs : writeBit u.SCON0 0 false = writeBit v.SCON0 0 false) :
    isr_rx C u = isr_rx C v := by
  unfold isr_rx
  rw [if_pos hu, if_pos hv]
  rw [h]
  simp only [set_RI]
  rw [hs]

end Uart12.C51

namespace Uart12.C51
open Uart12

/-- C12: both interrupt conditions are served in one invocation.  For every
state with TI and RI both pending, a single `uart0_isr` invocation clears both
flags, sets `tx_ready`, and performs the complete receive step (byte stored at
the old head, head advanced, `rx_remaining` decremented, pause check); the
resulting state equals that of an invocation with only TI pending followed, once
RI is raised again, by an invocation with only RI pending. -/
theorem C12_both_flags (C : Nat) (hC : validBufferSize C) (s : State)
    (hT : TI s = true) (hR : RI s = true) :
    TI (uart0_isr C s) = false ∧ RI (uart0_isr C s) = false ∧
    (uart0_isr C s).tx_ready = true ∧
    (uart0_isr C s).rx_buf = Function.update s.rx_buf s.rx_head s.SBUF0_rx ∧
    (uart0_isr C s).rx_head = (s.rx_head + 1) % C ∧
    (uart0_isr C s).rx_remaining = (s.rx_remaining + 255) % 256 ∧
    ((uart0_isr C s).RTS = true ↔
      s.RTS = true ∨ (uart0_isr C s).rx_remaining < C / 4) ∧
    TI (set_RI s false) = true ∧ RI (set_RI s false) = false ∧
    TI (set_RI (uart0_isr C (set_RI s false)) true) = false ∧
    RI (set_RI (uart0_isr C (set_RI s false)) true) = true ∧
    uart0_isr C s = uart0_isr C (set_RI (uart0_isr C (set_RI s false)) true) := by
  have hRI : RI (isr_tx s) = true := by rw [isr_tx_RI]; exact hR
  obtain ⟨f1, f2, f3, f4, f5, f6, f7⟩ := isr_tx_frame s
  obtain ⟨g1, g2, g3, g4, g5, g6, g7, g8⟩ := isr_rx_fields C _ hRI
  have hT0 : TI (set_RI s false) = true := by rw [TI_set_RI]; exact hT
  have hR0 : RI (set_RI s false) = false := RI_set_RI s false
  -- first invocation of the split run: only the transmit half acts
  have hfirst : uart0_isr C (set_RI s false) =
      { set_TI (set_RI s false) false with tx_ready := true } := by
    have hr : RI (isr_tx (set_RI s false)) = false := by rw [isr_tx_RI]; exact hR0
    rw [uart0_isr_eq]
    unfold isr_rx
    rw [if_neg (by rw [hr]; decide)]
    unfold isr_tx
    rw [if_pos hT0]
  have hT1 : TI (set_RI (uart0_isr C (set_RI s false)) true) = false := by
    rw [TI_set_RI]; exact (uart0_isr_tx_ready C _).2
  have hR1 : RI (set_RI (uart0_isr C (set_RI s false)) true) = true := RI_set_RI _ true
  refine ⟨?_, ?_, ?_, ?_, ?_, ?_, ?_, hT0, hR0, hT1, hR1, ?_⟩
  · rw [uart0_isr_eq, g8]; exact isr_tx_TI s
  · rw [uart0_isr_eq]; exact g7
  · rw [uart0_isr_eq, g6, f7, hT]; simp
  · rw [uart0_isr_eq, g4, f4, f1, f6]
  · rw [uart0_isr_eq, g1, f1, valid_mask C hC]
  · rw [uart0_isr_eq, g3, f3]
  · rw [uart0_isr_eq, g5, g3, f5, f3]
    simp [PAUSELEVEL]
  · -- second invocation of the split run: only the receive half acts
    have hsecond : uart0_isr C (set_RI (uart0_isr C (set_RI s false)) true) =
        isr_rx C (set_RI (uart0_isr C (set_RI s false)) true) := by
      rw [uart0_isr_eq]
      congr 1
      unfold isr_tx
      rw [if_neg (by rw [hT1]; decide)]
    have hv : isr_tx s = { set_TI s false with tx_ready := true } := by
      unfold isr_tx; rw [if_pos hT]
    rw [hsecond, uart0_isr_eq]
    symm
    apply isr_rx_congr C _ _ hR1 hRI
    · rw [hfirst, hv]; rfl
    · rw [hfirst, hv]
      exact scon_replay s.SCON0

/-- Witness for C12: byte 65 arrives while the transmit interrupt raised by
`uart_init` is still pending. -/
theorem C12_both_flags_witness :
    TI (uart0_isr 128 (hw_receive 65 (uart_init 128 zeroState))) = false ∧
    RI (uart0_isr 128 (hw_receive 65 (uart_init 128 zeroState))) = false ∧
    (uart0_isr 128 (hw_receive 65 (uart_init 128 zeroState))).tx_ready = true := by
  have h := C12_both_flags 128 (by decide) (hw_receive 65 (uart_init 128 zeroState))
    (by decide) (by decide)
  exact ⟨h.1, h.2.1, h.2.2.1⟩

end Uart12.C51

namespace Uart12.C51
open Uart12

theorem rx_events_append (C : Nat) (a b : List Nat) (s : State) :
    rx_events C (a ++ b) s = rx_events C b (rx_events C a s) := by
  unfold rx_events
  rw [List.foldl_append]

theorem rx_events_run (C : Nat) (B : List Nat) (s : State) :
    run C s (B.map Event.recv) = some (rx_events C B s, []) := by
  have := run_map_recv C B s []
  rw [List.append_nil] at this
  rw [this]; rfl

theorem rx_events_Inv (C : Nat) (hC : validBufferSize C) (s0 : State) (B : List Nat)
    (hB : B.length ≤ C) : Inv C (rx_events C B (uart_init C s0)) B 0 := by
  have h := (run_init_fifo C hC s0 (B.map Event.recv) _ _ (by
    intro n _
    rw [← List.map_take]
    simp only [recvs_map_recv, pops_map_recv, List.length_take]
    omega) (rx_events_run C B _)).1
  simpa using h

/-- C13: overflow silently overwrites.  A receive event stores its byte at
`rx_buf[rx_head]` without any check, it always completes and returns nothing, and
the state has no component that records an error.  Starting from `uart_init`,
cell 0 holds the first byte after the first receive event and still after `C`
of them; after `C + 1` receive events with nothing read it holds the `(C+1)`-th
byte, and the first `uart_getchar` returns the `(C+1)`-th byte instead of the
first. -/
theorem C13_overflow_overwrites (C : Nat) (hC : validBufferSize C) (s0 : State)
    (pre : List Nat) (last : Nat) (hlen : pre.length = C) :
    (rx_events C (pre.take 1) (uart_init C s0)).rx_buf 0 = pre.getD 0 0 ∧
    (rx_events C pre (uart_init C s0)).rx_buf 0 = pre.getD 0 0 ∧
    (rx_events C (pre ++ [last]) (uart_init C s0)).rx_buf 0 = last ∧
    (∃ s', uart_getchar C (rx_events C (pre ++ [last]) (uart_init C s0)) = some (s', last)) ∧
    (∀ (s : State) (b : Nat), step C s (Event.recv b) = some (rx_event C b s, []) ∧
      (rx_event C b s).rx_buf s.rx_head = b) := by
  have hC4 := (valid_pos C hC).1
  have hI := rx_events_Inv C hC s0 pre (by omega)
  have hI1 := rx_events_Inv C hC s0 (pre.take 1) (by
    have := List.length_take_le 1 pre
    omega)
  obtain ⟨f1, f2, -, f4, -⟩ := rx_event_fields C last (rx_events C pre (uart_init C s0))
  have hhead : (rx_events C pre (uart_init C s0)).rx_head = 0 := by
    rw [hI.head, hlen, Nat.mod_self]
  have hlast : (rx_events C (pre ++ [last]) (uart_init C s0)).rx_buf 0 = last := by
    rw [rx_events_append]
    show (rx_event C last (rx_events C pre (uart_init C s0))).rx_buf 0 = last
    rw [f4, hhead]
    simp
  refine ⟨?_, ?_, hlast, ?_, ?_⟩
  · have := hI1.buf 0 (Nat.le_refl _) (by simp; omega)
    rw [Nat.zero_mod] at this
    rw [this]
    simp [List.getD_eq_getElem?_getD, List.getElem?_take]
  · have := hI.buf 0 (Nat.le_refl _) (by omega)
    rw [Nat.zero_mod] at this
    exact this
  · have hh : (rx_events C (pre ++ [last]) (uart_init C s0)).rx_head = 1 := by
      rw [rx_events_append]
      show (rx_event C last (rx_events C pre (uart_init C s0))).rx_head = 1
      rw [f1, valid_mask C hC, hhead]
      exact Nat.mod_eq_of_lt (by omega)
    have ht : (rx_events C (pre ++ [last]) (uart_init C s0)).rx_tail = 0 := by
      rw [rx_events_append]
      show (rx_event C last (rx_events C pre (uart_init C s0))).rx_tail = 0
      rw [f2, hI.tail, Nat.zero_mod]
    obtain ⟨s', hs', -⟩ := uart_getchar_fields C
      (rx_events C (pre ++ [last]) (uart_init C s0)) (by rw [hh, ht]; decide)
    refine ⟨s', ?_⟩
    rw [hs', ht, hlast]
  · intro s b
    refine ⟨rfl, ?_⟩
    rw [(rx_event_fields C b s).2.2.2.1]
    simp

/-- Witness for C13: with `C = 4`, five receive events and nothing read. -/
theorem C13_overflow_overwrites_witness :
    (rx_events 4 [1, 2, 3, 4, 5] (uart_init 4 zeroState)).rx_buf 0 = 5 ∧
    ∃ s', uart_getchar 4 (rx_events 4 [1, 2, 3, 4, 5] (uart_init 4 zeroState)) =
      some (s', 5) := by
  have h := C13_overflow_overwrites 4 (by decide) zeroState [1, 2, 3, 4] 5 rfl
  exact ⟨h.2.2.1, h.2.2.2.1⟩

end Uart12.C51

namespace Uart12.C51
open Uart12

theorem run_append (C : Nat) (a b : List Event) :
    ∀ s : State, run C s (a ++ b) =
      (run C s a).bind (fun p => (run C p.1 b).map (fun q => (q.1, p.2 ++ q.2))) := by
  induction a with
  | nil =>
    intro s
    simp only [List.nil_append, run, Option.some_bind, List.nil_append]
    cases run C s b with
    | none => rfl
    | some q => rfl
  | cons e es ih =>
    intro s
    cases e with
    | recv x =>
      rw [List.cons_append, run_recv, run_recv, ih]
    | getc =>
      cases hg : uart_getchar C s with
      | none =>
        rw [List.cons_append, run_getc_none C s _ hg, run_getc_none C s _ hg]
        rfl
      | some p =>
        obtain ⟨t1, c⟩ := p
        rw [List.cons_append, run_getc_some C s t1 c _ hg, run_getc_some C s t1 c _ hg, ih]
        cases run C t1 es with
        | none => rfl
        | some q =>
          simp only [Option.some_bind, Option.map_some']
          cases run C q.1 b with
          | none => rfl
          | some r => simp

theorem Flow_init (C : Nat) (h256 : C < 256) (s0 : State) : Flow C (uart_init C s0) where
  low := by
    intro _
    show C / 4 ≤ C % 256
    rw [Nat.mod_eq_of_lt h256]
    omega
  high := by
    intro h
    have : (uart_init C s0).RTS = false := rfl
    rw [this] at h
    cases h

theorem Flow_recv (C : Nat) (h256 : C < 256) (s : State) (hist : List Nat)
    (S b : Nat) (hI : Inv C s hist S) (hcap : hist.length + 1 - S ≤ C) (hF : Flow C s) :
    Flow C (rx_event C b s) := by
  obtain ⟨-, -, f3, -, f5, -⟩ := rx_event_fields C b s
  have hle := hI.le
  have hrem : s.rx_remaining = C - (hist.length - S) := by
    rw [hI.rem]; omega
  have hrem' : (rx_event C b s).rx_remaining = s.rx_remaining - 1 := by
    rw [f3, hrem]; omega
  refine ⟨?_, ?_⟩
  · intro h
    rw [f5] at h
    simp only [Bool.or_eq_false_iff, decide_eq_false_iff_not, PAUSELEVEL] at h
    rw [f3]
    omega
  · intro h
    rw [f5] at h
    simp only [Bool.or_eq_true, decide_eq_true_eq, PAUSELEVEL] at h
    rcases h with h | h
    · have := hF.high h
      rw [hrem']; omega
    · rw [← f3] at h
      omega

theorem Flow_getc (C : Nat) (h256 : C < 256) (s s' : State) (hist : List Nat)
    (S c : Nat) (hI : Inv C s hist S) (hg : uart_getchar C s = some (s', c))
    (hF : Flow C s) : Flow C s' := by
  have hne := uart_getchar_isSome C s s' c hg
  obtain ⟨t, ht, -, g2, -, -, g5, -⟩ := uart_getchar_fields C s hne
  rw [ht] at hg
  obtain ⟨rfl, rfl⟩ := Prod.mk.inj (Option.some.inj hg)
  have hle := hI.le
  have hcap := hI.cap
  have hrem : s.rx_remaining = C - (hist.length - S) := by
    rw [hI.rem]; omega
  have hlt : S < hist.length := by
    rcases Nat.lt_or_ge S hist.length with h1 | h1
    · exact h1
    · exfalso
      apply hne
      rw [hI.head, hI.tail]
      have : S = hist.length := by omega
      rw [this]
  have hrem' : t.rx_remaining = s.rx_remaining + 1 := by
    rw [g2, hrem]; omega
  refine ⟨?_, ?_⟩
  · intro h
    rw [g5] at h
    simp only [Bool.and_eq_false_imp, Bool.not_eq_eq_eq_not, Bool.not_false,
      decide_eq_true_eq, RESUMELEVEL] at h
    by_cases hs : s.RTS = true
    · have := h hs
      rw [← g2] at this
      omega
    · have hs' : s.RTS = false := by simpa using hs
      have := hF.low hs'
      rw [hrem']; omega
  · intro h
    rw [g5] at h
    simp only [Bool.and_eq_true, Bool.not_eq_eq_eq_not, Bool.not_true,
      decide_eq_false_iff_not, RESUMELEVEL] at h
    rw [g2]
    omega

theorem run_flow (C : Nat) (hC : validBufferSize C) (h256 : C < 256) :
    ∀ (evs : List Event) (s : State) (hist : List Nat) (S : Nat) (s' : State)
      (out : List Nat),
      Inv C s hist S → Flow C s →
      (∀ n, n ≤ evs.length →
        hist.length + recvs (evs.take n) - (S + pops (evs.take n)) ≤ C) →
      run C s evs = some (s', out) → Flow C s' := by
  intro evs
  induction evs with
  | nil =>
    intro s hist S s' out _ hF _ hrun
    simp only [run, Option.some.injEq, Prod.mk.injEq] at hrun
    rw [← hrun.1]; exact hF
  | cons e es ih =>
    intro s hist S s' out hI hF hpre hrun
    cases e with
    | recv b =>
      rw [run_recv] at hrun
      have h1 := hpre 1 (by simp)
      simp only [List.take_succ_cons, List.take_zero, recvs_recv, recvs_nil, pops_recv,
        pops_nil] at h1
      have hI1 := Inv_recv C hC s hist S b hI (by omega)
      have hF1 := Flow_recv C h256 s hist S b hI (by omega) hF
      refine ih _ _ _ _ _ hI1 hF1 ?_ hrun
      intro n hn
      have := hpre (n + 1) (by simpa using hn)
      simp only [List.take_succ_cons, recvs_recv, pops_recv] at this
      simp only [List.length_append, List.length_singleton]
      omega
    | getc =>
      cases hg : uart_getchar C s with
      | none =>
        rw [run_getc_none C s es hg] at hrun
        exact Option.noConfusion hrun
      | some p =>
        obtain ⟨s1, c⟩ := p
        rw [run_getc_some C s s1 c es hg] at hrun
        obtain ⟨hI1, -, -⟩ := Inv_getc C hC s s1 hist S c hI hg
        have hF1 := Flow_getc C h256 s s1 hist S c hI hg hF
        cases hr : run C s1 es with
        | none =>
          rw [hr] at hrun
          exact Option.noConfusion hrun
        | some q =>
          obtain ⟨s2, os⟩ := q
          rw [hr] at hrun
          simp only [Option.map_some', Option.some.injEq, Prod.mk.injEq] at hrun
          obtain ⟨rfl, rfl⟩ := hrun
          refine ih _ _ _ _ _ hI1 hF1 ?_ hr
          intro n hn
          have := hpre (n + 1) (by simpa using hn)
          simp only [List.take_succ_cons, recvs_getc, pops_getc] at this
          omega

theorem reach_facts (C : Nat) (hC : validBufferSize C) (h256 : C < 256) (s0 : State)
    (evs : List Event)
    (hpre : ∀ n, n ≤ evs.length → recvs (evs.take n) - pops (evs.take n) ≤ C)
    (n : Nat) (s : State) (out : List Nat)
    (hrun : run C (uart_init C s0) (evs.take n) = some (s, out)) :
    Inv C s (delivered (evs.take n)) (pops (evs.take n)) ∧ Flow C s ∧
    pops (evs.take n) ≤ recvs (evs.take n) ∧
    recvs (evs.take n) - pops (evs.take n) ≤ C ∧
    s.rx_remaining = C - (recvs (evs.take n) - pops (evs.take n)) := by
  have hpre' : ∀ m, m ≤ (evs.take n).length →
      recvs ((evs.take n).take m) - pops ((evs.take n).take m) ≤ C := by
    intro m hm
    obtain ⟨e, hle⟩ := take_take_le evs n m hm
    rw [e]
    exact hpre m hle
  obtain ⟨hI, -⟩ := run_init_fifo C hC s0 (evs.take n) s out hpre' hrun
  have hF := run_flow C hC h256 (evs.take n) _ [] 0 s out (Inv_init C s0)
    (Flow_init C h256 s0) (by simpa using hpre') hrun
  have hcap := hI.cap
  refine ⟨hI, hF, hI.le, hcap, ?_⟩
  rw [hI.rem]
  unfold recvs
  omega

/-- C18: the flow-state invariant.  In every state reached from `uart_init`
without overflow (`R - S ≤ C` at every prefix, every `uart_getchar` of the run
issued with `rx_head ≠ rx_tail`, so that it returned), RTS deasserted implies
`rx_remaining ≥ C/4` and RTS asserted implies `rx_remaining ≤ C/2`; hence
whenever the buffer holds no unread byte RTS is deasserted. -/
theorem C18_flow_invariant (C : Nat) (hC : validBufferSize C) (h256 : C < 256)
    (s0 : State) (evs : List Event)
    (hpre : ∀ n, n ≤ evs.length → recvs (evs.take n) - pops (evs.take n) ≤ C)
    (n : Nat) (s : State) (out : List Nat)
    (hrun : run C (uart_init C s0) (evs.take n) = some (s, out)) :
    (s.RTS = false → C / 4 ≤ s.rx_remaining) ∧
    (s.RTS = true → s.rx_remaining ≤ C / 2) ∧
    (recvs (evs.take n) = pops (evs.take n) → s.RTS = false) := by
  obtain ⟨-, hF, -, -, hrem⟩ := reach_facts C hC h256 s0 evs hpre n s out hrun
  refine ⟨hF.low, hF.high, ?_⟩
  intro hRS
  have hC4 := (valid_pos C hC).1
  cases hP : s.RTS with
  | false => rfl
  | true =>
    have := hF.high hP
    rw [hrem, hRS] at this
    omega

/-- Witness for C18: one byte received and read back, `BUFFERSIZE = 128`; the
buffer holds no unread byte and RTS is deasserted. -/
theorem C18_flow_invariant_witness :
    (run 128 (uart_init 128 zeroState) [Event.recv 7, Event.getc]).map
      (fun p => p.1.RTS) = some false := by
  have hs : (run 128 (uart_init 128 zeroState) [Event.recv 7, Event.getc]).isSome = true := by
    decide
  cases h : run 128 (uart_init 128 zeroState) [Event.recv 7, Event.getc] with
  | none => rw [h] at hs; exact absurd hs (by decide)
  | some p =>
    obtain ⟨s, out⟩ := p
    have := (C18_flow_invariant 128 (by decide) (by decide) zeroState
      [Event.recv 7, Event.getc] (by decide) 2 s out h).2.2 (by decide)
    simp [this]

end Uart12.C51

namespace Uart12.C51
open Uart12

theorem counts_length (l : List Event) : recvs l + pops l = l.length := by
  induction l with
  | nil => rfl
  | cons e es ih =>
    cases e with
    | recv b => simp only [recvs_recv, pops_recv, List.length_cons]; omega
    | getc => simp only [recvs_getc, pops_getc, List.length_cons]; omega

theorem counts_take (l : List Event) (a b : Nat) (hab : a ≤ b) :
    recvs (l.take a) ≤ recvs (l.take b) ∧ pops (l.take a) ≤ pops (l.take b) ∧
    recvs (l.take b) + pops (l.take b) ≤ recvs (l.take a) + pops (l.take a) + (b - a) := by
  have hsplit : l.take b = l.take a ++ (l.take b).drop a := by
    have := List.take_append_drop a (l.take b)
    rw [List.take_take, Nat.min_eq_left hab] at this
    exact this.symm
  have h1 := recvs_append (l.take a) ((l.take b).drop a)
  have h2 := pops_append (l.take a) ((l.take b).drop a)
  rw [← hsplit] at h1 h2
  have h3 := counts_length (l.take a)
  have h4 := counts_length (l.take b)
  have h5 : (l.take a).length = min a l.length := List.length_take a l
  have h6 : (l.take b).length = min b l.length := List.length_take b l
  omega

theorem stateAt_some (C : Nat) (s : State) (evs : List Event) (n : Nat) (t : State)
    (h : stateAt C s evs n = some t) : ∃ o, run C s (evs.take n) = some (t, o) := by
  unfold stateAt at h
  cases hr : run C s (evs.take n) with
  | none => rw [hr] at h; cases h
  | some p =>
    rw [hr] at h
    simp only [Option.map_some', Option.some.injEq] at h
    exact ⟨p.2, by rw [← h]⟩

theorem stateAt_mono (C : Nat) (s : State) (evs : List Event) (a b : Nat) (hab : a ≤ b)
    (tb : State) (h : stateAt C s evs b = some tb) : ∃ ta, stateAt C s evs a = some ta := by
  obtain ⟨o, hr⟩ := stateAt_some C s evs b tb h
  have hsplit : evs.take b = evs.take a ++ (evs.take b).drop a := by
    have := List.take_append_drop a (evs.take b)
    rw [List.take_take, Nat.min_eq_left hab] at this
    exact this.symm
  rw [hsplit, run_append] at hr
  unfold stateAt
  cases h1 : run C s (evs.take a) with
  | none => rw [h1] at hr; cases hr
  | some p => exact ⟨p.1, rfl⟩

theorem stateAt_step (C : Nat) (s : State) (evs : List Event) (n : Nat) (t t' : State)
    (h : stateAt C s evs n = some t) (h' : stateAt C s evs (n + 1) = some t') :
    t' = t ∨ ∃ e o, step C t e = some (t', o) := by
  obtain ⟨o, hr⟩ := stateAt_some C s evs n t h
  obtain ⟨o', hr'⟩ := stateAt_some C s evs (n + 1) t' h'
  rw [List.take_succ] at hr'
  cases he : evs[n]? with
  | none =>
    rw [he] at hr'
    simp only [Option.toList_none, List.append_nil] at hr'
    rw [hr] at hr'
    left
    exact ((Prod.mk.inj (Option.some.inj hr')).1).symm
  | some e =>
    rw [he, run_append, hr] at hr'
    simp only [Option.toList_some, Option.some_bind, run] at hr'
    right
    cases hs : step C t e with
    | none => rw [hs] at hr'; cases hr'
    | some q =>
      rw [hs] at hr'
      simp only [Option.map_some', Option.some.injEq, Prod.mk.injEq] at hr'
      exact ⟨e, q.2, by rw [hs, ← hr'.1]⟩

theorem step_change (C : Nat) (hC4 : 4 ≤ C) (h256 : C < 256) (t t' : State) (e : Event)
    (o : List Nat) (hF : Flow C t) (hrem : t.rx_remaining ≤ C)
    (hstep : step C t e = some (t', o))
    (hch : t.RTS ≠ t'.RTS) :
    (t.RTS = false ∧ t'.RTS = true ∧ t'.rx_remaining + 1 = C / 4) ∨
    (t.RTS = true ∧ t'.RTS = false ∧ t'.rx_remaining = C / 2 + 1) := by
  cases e with
  | recv b =>
    simp only [step, Option.some.injEq, Prod.mk.injEq] at hstep
    obtain ⟨rfl, -⟩ := hstep
    obtain ⟨-, -, f3, -, f5, -⟩ := rx_event_fields C b t
    left
    cases hP : t.RTS with
    | true =>
      rw [f5, hP] at hch
      exact absurd rfl hch
    | false =>
      rw [f5, hP] at hch
      have hlt : (t.rx_remaining + 255) % 256 < PAUSELEVEL C := by
        by_contra hcon
        apply hch
        simp [hcon]
      have hlow := hF.low hP
      unfold PAUSELEVEL at hlt
      refine ⟨rfl, ?_, ?_⟩
      · rw [f5, hP]; simp [PAUSELEVEL, hlt]
      · rw [f3]; omega
  | getc =>
    simp only [step] at hstep
    cases hg : uart_getchar C t with
    | none => rw [hg] at hstep; cases hstep
    | some p =>
      obtain ⟨t1, c⟩ := p
      rw [hg] at hstep
      simp only [Option.some.injEq, Prod.mk.injEq] at hstep
      obtain ⟨rfl, -⟩ := hstep
      have hne := uart_getchar_isSome C t t1 c hg
      obtain ⟨u, hu, -, g2, -, -, g5, -⟩ := uart_getchar_fields C t hne
      rw [hu] at hg
      obtain ⟨rfl, -⟩ := Prod.mk.inj (Option.some.inj hg)
      right
      cases hP : t.RTS with
      | false =>
        rw [g5, hP] at hch
        exact absurd rfl hch
      | true =>
        rw [g5, hP] at hch
        have hgt : (t.rx_remaining + 1) % 256 > RESUMELEVEL C := by
          by_contra hcon
          apply hch
          simp [hcon]
        have hhigh := hF.high hP
        unfold RESUMELEVEL at hgt
        refine ⟨rfl, ?_, ?_⟩
        · rw [g5, hP]; simp [RESUMELEVEL, hgt]
        · rw [g2]; omega

end Uart12.C51

namespace Uart12.C51
open Uart12

/-- C14: no chatter.  In every run from `uart_init` without overflow
(`R - S ≤ C` at every prefix), RTS asserts only into a state with `rx_remaining`
exactly `C/4 - 1` and deasserts only into a state with `rx_remaining` exactly
`C/2 + 1`; RTS never changes on two consecutive buffer operations, and of two
successive changes of RTS the second happens at least `C/4 + 2` receive or read
operations after the first (34 for `C = 128`).  States are indexed by the number
of operations done: operation `n + 1` leads from state `n` to state `n + 1`. -/
theorem C14_no_chatter (C : Nat) (hC : validBufferSize C) (h256 : C < 256)
    (s0 : State) (evs : List Event)
    (hpre : ∀ n, n ≤ evs.length → recvs (evs.take n) - pops (evs.take n) ≤ C) :
    (∀ (n : Nat) (t t' : State), stateAt C (uart_init C s0) evs n = some t →
      stateAt C (uart_init C s0) evs (n + 1) = some t' →
      t.RTS = false → t'.RTS = true → t'.rx_remaining = C / 4 - 1) ∧
    (∀ (n : Nat) (t t' : State), stateAt C (uart_init C s0) evs n = some t →
      stateAt C (uart_init C s0) evs (n + 1) = some t' →
      t.RTS = true → t'.RTS = false → t'.rx_remaining = C / 2 + 1) ∧
    (∀ (n : Nat) (t t' t'' : State), stateAt C (uart_init C s0) evs n = some t →
      stateAt C (uart_init C s0) evs (n + 1) = some t' →
      stateAt C (uart_init C s0) evs (n + 2) = some t'' →
      t.RTS ≠ t'.RTS → t'.RTS = t''.RTS) ∧
    (∀ (i j : Nat) (ti ti' tj tj' : State), i < j →
      stateAt C (uart_init C s0) evs i = some ti →
      stateAt C (uart_init C s0) evs (i + 1) = some ti' →
      stateAt C (uart_init C s0) evs j = some tj →
      stateAt C (uart_init C s0) evs (j + 1) = some tj' →
      ti.RTS ≠ ti'.RTS → tj.RTS ≠ tj'.RTS →
      (∀ (k : Nat) (t t' : State), i < k → k < j →
        stateAt C (uart_init C s0) evs k = some t →
        stateAt C (uart_init C s0) evs (k + 1) = some t' → t.RTS = t'.RTS) →
      C / 4 + 2 ≤ j - i) := by
  have hC4 := (valid_pos C hC).1
  have facts : ∀ (n : Nat) (t : State), stateAt C (uart_init C s0) evs n = some t →
      Flow C t ∧ pops (evs.take n) ≤ recvs (evs.take n) ∧
      recvs (evs.take n) - pops (evs.take n) ≤ C ∧
      t.rx_remaining = C - (recvs (evs.take n) - pops (evs.take n)) := by
    intro n t h
    obtain ⟨o, hr⟩ := stateAt_some C _ evs n t h
    exact (reach_facts C hC h256 s0 evs hpre n t o hr).2
  have kind : ∀ (n : Nat) (t t' : State), stateAt C (uart_init C s0) evs n = some t →
      stateAt C (uart_init C s0) evs (n + 1) = some t' → t.RTS ≠ t'.RTS →
      (t.RTS = false ∧ t'.RTS = true ∧ t'.rx_remaining + 1 = C / 4) ∨
      (t.RTS = true ∧ t'.RTS = false ∧ t'.rx_remaining = C / 2 + 1) := by
    intro n t t' h h' hch
    obtain ⟨hF, -, -, hrem⟩ := facts n t h
    rcases stateAt_step C _ evs n t t' h h' with e | ⟨e, o, hstep⟩
    · rw [e] at hch; exact absurd rfl hch
    · exact step_change C hC4 h256 t t' e o hF (by rw [hrem]; omega) hstep hch
  have sep : ∀ (i j : Nat) (ti ti' tj tj' : State), i < j →
      stateAt C (uart_init C s0) evs i = some ti →
      stateAt C (uart_init C s0) evs (i + 1) = some ti' →
      stateAt C (uart_init C s0) evs j = some tj →
      stateAt C (uart_init C s0) evs (j + 1) = some tj' →
      ti.RTS ≠ ti'.RTS → tj.RTS ≠ tj'.RTS →
      (∀ (k : Nat) (t t' : State), i < k → k < j →
        stateAt C (uart_init C s0) evs k = some t →
        stateAt C (uart_init C s0) evs (k + 1) = some t' → t.RTS = t'.RTS) →
      C / 4 + 2 ≤ j - i := by
    intro i j ti ti' tj tj' hij hi hi' hj hj' hci hcj hconst
    have hflat : ∀ m, i + 1 ≤ m → m ≤ j → ∀ tm : State,
        stateAt C (uart_init C s0) evs m = some tm → tm.RTS = ti'.RTS := by
      intro m hm
      induction m, hm using Nat.le_induction with
      | base =>
        intro _ tm htm
        rw [hi'] at htm
        rw [Option.some.inj htm]
      | succ m hm ih =>
        intro hmj tm1 htm1
        obtain ⟨tm, htm⟩ := stateAt_mono C _ evs m (m + 1) (Nat.le_succ m) tm1 htm1
        rw [← hconst m tm tm1 (by omega) (by omega) htm htm1]
        exact ih (by omega) tm htm
    have hjeq : tj.RTS = ti'.RTS := hflat j (by omega) (Nat.le_refl _) tj hj
    obtain ⟨-, hle1, hcap1, hrem1⟩ := facts (i + 1) ti' hi'
    obtain ⟨-, hle2, hcap2, hrem2⟩ := facts (j + 1) tj' hj'
    obtain ⟨c1, c2, c3⟩ := counts_take evs (i + 1) (j + 1) (by omega)
    rcases kind i ti ti' hi hi' hci with ⟨-, a2, a3⟩ | ⟨-, a2, a3⟩ <;>
      rcases kind j tj tj' hj hj' hcj with ⟨b1, -, b3⟩ | ⟨b1, -, b3⟩
    · rw [hjeq, a2] at b1; cases b1
    · omega
    · omega
    · rw [hjeq, a2] at b1; cases b1
  refine ⟨?_, ?_, ?_, sep⟩
  · intro n t t' h h' h1 h2
    rcases kind n t t' h h' (by rw [h1, h2]; decide) with ⟨-, -, a⟩ | ⟨a, -⟩
    · omega
    · rw [h1] at a; cases a
  · intro n t t' h h' h1 h2
    rcases kind n t t' h h' (by rw [h1, h2]; decide) with ⟨a, -⟩ | ⟨-, -, a⟩
    · rw [h1] at a; cases a
    · exact a
  · intro n t t' t'' h h' h'' hch
    by_contra hne
    have := sep n (n + 1) t t' t' t'' (Nat.lt_succ_self n) h h' h' h'' hch hne
      (fun k _ _ h1 h2 _ _ => by omega)
    omega

end Uart12.C51

namespace Uart12.C51
open Uart12

/-- Witness for C14: with `BUFFERSIZE = 128` the 97th receive event asserts RTS
and leaves `rx_remaining = 128/4 - 1`. -/
theorem C14_no_chatter_witness :
    (rx_events 128 (List.replicate 97 0) (uart_init 128 zeroState)).rx_remaining =
      128 / 4 - 1 :=
  (C14_no_chatter 128 (by decide) (by decide) zeroState
    ((List.replicate 97 0).map Event.recv)
    (by
      intro n _
      rw [← List.map_take]
      simp only [recvs_map_recv, pops_map_recv, List.length_take, List.length_replicate]
      omega)).1 96
    (rx_events 128 (List.replicate 96 0) (uart_init 128 zeroState))
    (rx_events 128 (List.replicate 97 0) (uart_init 128 zeroState))
    (by
      have : ((List.replicate 97 0).map Event.recv).take 96 =
          (List.replicate 96 0).map Event.recv := by
        rw [← List.map_take, List.take_replicate]; rfl
      unfold stateAt
      rw [this, rx_events_run, Option.map_some'])
    (by
      have : ((List.replicate 97 0).map Event.recv).take (96 + 1) =
          (List.replicate 97 0).map Event.recv := by
        rw [← List.map_take, List.take_replicate]; rfl
      unfold stateAt
      rw [this, rx_events_run, Option.map_some'])
    (by
      rw [(rx_events_burst (List.replicate 96 0) _ 0 rfl rfl (by simp)).2]
      simp)
    (by
      rw [(rx_events_burst (List.replicate 97 0) _ 0 rfl rfl (by simp)).2]
      simp)

end Uart12.C51

namespace Uart12
open Uart12.C51

/-- C15, the code at the failing input: `BUFFERSIZE = 256` passes the three
preprocessor checks, yet in both variants `uart_init` leaves `rx_remaining = 0`,
not 256, because the counter is an `unsigned char`; with the buffer empty
`rx_remaining` is therefore not `C - occupied`. -/
theorem C15_counter_wraps_at_256 :
    validBufferSize 256 ∧
    (∀ s0 : State, (SDCC.uart_init 256 s0).rx_remaining = 0) ∧
    (∀ s0 : State, (C51.uart_init 256 s0).rx_remaining = 0) ∧
    (∀ s0 : State, (SDCC.uart_init 256 s0).rx_remaining ≠ 256 - 0) := by
  refine ⟨by decide, fun _ => rfl, fun _ => rfl, fun s0 => ?_⟩
  show (256 % 256 : Nat) ≠ 256 - 0
  decide

/-- C16: the two toolchain variants agree.  For every state and argument the
Keil C51 and the SDCC versions of `uart_init`, `uart0_isr`, `uart_char_avail`,
`uart_getchar` and `uart_putchar` produce the same final state and the same
return value; `uart_init` reaches the same register and variable values although
the SDCC version writes `SCON0` before the timer registers. -/
theorem C16_variants_agree :
    (∀ (C : Nat) (s : State), SDCC.uart_init C s = C51.uart_init C s) ∧
    (∀ (C : Nat) (s : State), SDCC.uart0_isr C s = C51.uart0_isr C s) ∧
    (∀ s : State, SDCC.uart_char_avail s = C51.uart_char_avail s) ∧
    (∀ (C : Nat) (s : State), SDCC.uart_getchar C s = C51.uart_getchar C s) ∧
    (∀ (c : Nat) (s : State), SDCC.uart_putchar c s = C51.uart_putchar c s) :=
  ⟨fun _ _ => rfl, fun _ _ => rfl, fun _ => rfl, fun _ _ => rfl, fun _ _ => rfl⟩

end Uart12

namespace Uart12.C51
open Uart12

/-- C17: the usable capacity is `C - 1`.  Starting from `uart_init`, for every
interleaving whose number of unread bytes stays at most `C - 1` at every prefix,
the bytes returned so far are the first `S` delivered bytes in order, and in
every state reached with `R > S` a `uart_getchar` finds `rx_head ≠ rx_tail`, so
it does not wait, and returns the oldest unread byte. -/
theorem C17_usable_capacity (C : Nat) (hC : validBufferSize C) (s0 : State)
    (evs : List Event)
    (hpre : ∀ n, n ≤ evs.length → recvs (evs.take n) - pops (evs.take n) ≤ C - 1)
    (n : Nat) (s : State) (out : List Nat)
    (hrun : run C (uart_init C s0) (evs.take n) = some (s, out)) :
    out = (delivered (evs.take n)).take (pops (evs.take n)) ∧
    (pops (evs.take n) < recvs (evs.take n) →
      s.rx_head ≠ s.rx_tail ∧
      ∃ s', uart_getchar C s =
        some (s', (delivered (evs.take n)).getD (pops (evs.take n)) 0)) := by
  have hC4 := (valid_pos C hC).1
  have hb : recvs (evs.take n) - pops (evs.take n) ≤ C - 1 := by
    rcases Nat.le_total n evs.length with h1 | h1
    · exact hpre n h1
    · rw [List.take_of_length_le h1]
      have := hpre evs.length (Nat.le_refl _)
      rwa [List.take_length] at this
  have hpre' : ∀ m, m ≤ (evs.take n).length →
      recvs ((evs.take n).take m) - pops ((evs.take n).take m) ≤ C := by
    intro m hm
    obtain ⟨e, hle⟩ := take_take_le evs n m hm
    rw [e]
    have := hpre m hle
    omega
  obtain ⟨hI, ho⟩ := run_init_fifo C hC s0 (evs.take n) s out hpre' hrun
  refine ⟨ho, ?_⟩
  intro hlt
  have hlt' : pops (evs.take n) < (delivered (evs.take n)).length := hlt
  have hne : s.rx_head ≠ s.rx_tail := by
    rw [hI.head, hI.tail]
    exact (mod_ne_of_lt C _ _ hlt' (by unfold recvs at hb; omega)).symm
  obtain ⟨s', hs', -⟩ := uart_getchar_fields C s hne
  refine ⟨hne, s', ?_⟩
  rw [hs', hI.tail, hI.buf _ (Nat.le_refl _) hlt']

/-- Witness for C17: two bytes received with `BUFFERSIZE = 128`; the next read
returns the first of them. -/
theorem C17_usable_capacity_witness :
    ∃ s', uart_getchar 128 (rx_event 128 8 (rx_event 128 7 (uart_init 128 zeroState))) =
      some (s', 7) :=
  ((C17_usable_capacity 128 (by decide) zeroState [Event.recv 7, Event.recv 8]
    (by decide) 2 (rx_event 128 8 (rx_event 128 7 (uart_init 128 zeroState))) []
    rfl).2 (by decide)).2

end Uart12.C51

namespace Uart12.C51
open Uart12

/-- C19: a one-byte overflow leaves the pause signal stuck.  Starting from
`uart_init` with `C = 128`, after 128 receive events `rx_remaining` is 0, the
129th wraps the 8-bit counter to 255, and the one `uart_getchar` that follows
returns and reaches a state with `rx_head = rx_tail` (`uart_char_avail` false, a
further `uart_getchar` waits), `rx_remaining = 0` rather than 128, and RTS still
asserted. -/
theorem C19_overflow_stuck (s0 : State) (pre : List Nat) (last : Nat)
    (hlen : pre.length = 128) :
    (rx_events BUFFERSIZE pre (uart_init BUFFERSIZE s0)).rx_remaining = 0 ∧
    (rx_events BUFFERSIZE (pre ++ [last]) (uart_init BUFFERSIZE s0)).rx_remaining = 255 ∧
    ∃ s' c, uart_getchar BUFFERSIZE
        (rx_events BUFFERSIZE (pre ++ [last]) (uart_init BUFFERSIZE s0)) = some (s', c) ∧
      s'.rx_head = s'.rx_tail ∧ (uart_char_avail s').1 = false ∧
      uart_getchar BUFFERSIZE s' = none ∧
      s'.rx_remaining = 0 ∧ s'.rx_remaining ≠ BUFFERSIZE ∧ s'.RTS = true := by
  have e128 : BUFFERSIZE = 128 := rfl
  rw [e128]
  have hC : validBufferSize 128 := by decide
  obtain ⟨b1, b2⟩ := rx_events_burst pre (uart_init 128 s0) 0 rfl rfl (by omega)
  rw [hlen] at b1 b2
  have hI := rx_events_Inv 128 hC s0 pre (by omega)
  obtain ⟨f1, f2, f3, -, f5, -⟩ := rx_event_fields 128 last
    (rx_events 128 pre (uart_init 128 s0))
  have hstep : rx_events 128 (pre ++ [last]) (uart_init 128 s0) =
      rx_event 128 last (rx_events 128 pre (uart_init 128 s0)) := by
    rw [rx_events_append]; rfl
  have hh : (rx_events 128 (pre ++ [last]) (uart_init 128 s0)).rx_head = 1 := by
    rw [hstep, f1, hI.head, hlen]; decide
  have ht : (rx_events 128 (pre ++ [last]) (uart_init 128 s0)).rx_tail = 0 := by
    rw [hstep, f2, hI.tail]
  have hr : (rx_events 128 (pre ++ [last]) (uart_init 128 s0)).rx_remaining = 255 := by
    rw [hstep, f3, b1]
  have hp : (rx_events 128 (pre ++ [last]) (uart_init 128 s0)).RTS = true := by
    rw [hstep, f5, b2]; rfl
  obtain ⟨s', hs', g1, g2, g3, -, g5, -⟩ := uart_getchar_fields 128
    (rx_events 128 (pre ++ [last]) (uart_init 128 s0)) (by rw [hh, ht]; decide)
  have heq : s'.rx_head = s'.rx_tail := by rw [g3, g1, hh, ht]; rfl
  have hrem : s'.rx_remaining = 0 := by rw [g2, hr]
  refine ⟨by rw [b1], hr, s', _, hs', heq, ?_, uart_getchar_none 128 s' heq, hrem, ?_, ?_⟩
  · rw [uart_char_avail_fst, heq]; simp
  · rw [hrem]; decide
  · rw [g5, hp, hr]; rfl

/-- Witness for C19: 129 zero bytes after `uart_init`. -/
theorem C19_overflow_stuck_witness :
    (rx_events BUFFERSIZE (List.replicate 128 0 ++ [0])
      (uart_init BUFFERSIZE zeroState)).rx_remaining = 255 :=
  (C19_overflow_stuck zeroState (List.replicate 128 0) 0 (by simp)).2.1

/-- C20: the transmit and receive paths are independent.  `uart_putchar`,
`uart_char_avail` and a `uart0_isr` invocation with only TI pending leave
`rx_head`, `rx_tail`, `rx_remaining`, `rx_buf` and RTS unchanged; `uart_getchar`
and a `uart0_isr` invocation with only RI pending leave `tx_ready` unchanged; a
`uart0_isr` invocation with neither flag pending changes nothing. -/
theorem C20_independent_paths (C : Nat) :
    (∀ (c r : Nat) (s s' : State), uart_putchar c s = some (s', r) →
      s'.rx_head = s.rx_head ∧ s'.rx_tail = s.rx_tail ∧
      s'.rx_remaining = s.rx_remaining ∧ s'.rx_buf = s.rx_buf ∧ s'.RTS = s.RTS) ∧
    (∀ s : State,
      (uart_char_avail s).2.rx_head = s.rx_head ∧
      (uart_char_avail s).2.rx_tail = s.rx_tail ∧
      (uart_char_avail s).2.rx_remaining = s.rx_remaining ∧
      (uart_char_avail s).2.rx_buf = s.rx_buf ∧ (uart_char_avail s).2.RTS = s.RTS) ∧
    (∀ s : State, TI s = true → RI s = false →
      (uart0_isr C s).rx_head = s.rx_head ∧ (uart0_isr C s).rx_tail = s.rx_tail ∧
      (uart0_isr C s).rx_remaining = s.rx_remaining ∧
      (uart0_isr C s).rx_buf = s.rx_buf ∧ (uart0_isr C s).RTS = s.RTS) ∧
    (∀ (c : Nat) (s s' : State), uart_getchar C s = some (s', c) →
      s'.tx_ready = s.tx_ready) ∧
    (∀ s : State, TI s = false → RI s = true →
      (uart0_isr C s).tx_ready = s.tx_ready) ∧
    (∀ s : State, TI s = false → RI s = false → uart0_isr C s = s) := by
  refine ⟨?_, fun _ => ⟨rfl, rfl, rfl, rfl, rfl⟩, ?_, ?_, ?_, ?_⟩
  · intro c r s s' h
    unfold uart_putchar at h
    by_cases hr : s.tx_ready = true
    · simp only [hr, Bool.not_true, Bool.false_eq_true, if_false, Option.some.injEq,
        Prod.mk.injEq] at h
      obtain ⟨rfl, -⟩ := h
      exact ⟨rfl, rfl, rfl, rfl, rfl⟩
    · simp [hr] at h
  · intro s _ hR
    obtain ⟨f1, f2, f3, f4, f5, -⟩ := isr_tx_frame s
    have hr : RI (isr_tx s) = false := by rw [isr_tx_RI]; exact hR
    have : isr_rx C (isr_tx s) = isr_tx s := by
      unfold isr_rx
      rw [if_neg (by rw [hr]; decide)]
    rw [uart0_isr_eq, this]
    exact ⟨f1, f2, f3, f4, f5⟩
  · intro c s s' h
    exact uart_getchar_tx_ready C s s' c h
  · intro s hT _
    rw [(uart0_isr_tx_ready C s).1, hT]
    simp
  · intro s hT hR
    have h1 : isr_tx s = s := by
      unfold isr_tx
      rw [if_neg (by rw [hT]; decide)]
    rw [uart0_isr_eq, h1]
    unfold isr_rx
    rw [if_neg (by rw [hR]; decide)]

/-- Witness for C20: in the all-zero state neither flag is pending and
`uart0_isr` changes nothing. -/
theorem C20_independent_paths_witness : uart0_isr 128 zeroState = zeroState :=
  (C20_independent_paths 128).2.2.2.2.2 zeroState (by decide) (by decide)

end Uart12.C51
